import Mathlib

/-!
Shallow embedding of the MFAF (Multi-File Archive Format) library core
(`core.py`, `exceptions.py`) in Lean 4.

Conventions of the embedding:
* Python `bytes` values are `List Nat` (each element the value of one byte);
  Python `str` values are represented by the bytes of their UTF-8 encoding.
* Python machine-independent integers are `Int` (or `Nat` where the source
  value is provably non-negative, e.g. `struct.unpack` results).
* Fallible operations (Python code that can raise) return `Option`/`Except`.
* The metadata serializer (the third-party `msgpack` library, not part of
  this repository) is modelled from the spec: "a compact self-describing
  binary encoding (map/array/scalar tagged encoding)", implemented here to
  match the msgpack wire format for the value domain of spec section 9
  (string | integer | boolean | nil | sequence | string-keyed map).
  Floating point values, the `bin`/`ext` families and the serializer's
  recursion-depth limit are not modelled; no claim depends on them.
-/

set_option maxRecDepth 100000

namespace MFAF

/-! ## Byte-string helpers -/

/-- Little-endian encoding of `n` on `k` bytes (`struct.pack '<...'`
field layout; the caller guards the range as `struct.pack` does). -/
def le : Nat → Nat → List Nat
  | 0, _ => []
  | k + 1, n => n % 256 :: le k (n / 256)

/-- Little-endian decoding of a byte list (`struct.unpack '<...'`). -/
def leDec (l : List Nat) : Nat :=
  l.foldr (fun b acc => b + 256 * acc) 0

/-- Big-endian decoding of a byte list (msgpack length/integer fields). -/
def beDec (l : List Nat) : Nat :=
  l.foldl (fun acc b => acc * 256 + b) 0

/-- Big-endian encoding of `n` on `k` bytes (msgpack length/integer fields). -/
def be : Nat → Nat → List Nat
  | 0, _ => []
  | k + 1, n => be k (n / 256) ++ [n % 256]

/-- The slice `bs[off : off+n]` of a byte string. -/
def slice (bs : List Nat) (off n : Nat) : List Nat :=
  (bs.drop off).take n

/-- Python `f.seek(pos); f.read(n)` on an in-memory byte string: a negative
count reads to the end of the data, and reads past the end come back short. -/
def pyRead (data : List Nat) (pos : Nat) (n : Int) : List Nat :=
  if n < 0 then data.drop pos else (data.drop pos).take n.toNat

/-! ## The msgpack value domain and codec (modelled from the spec) -/

/-- A value serializable in the metadata blob: the tagged variant of spec
section 9, restricted to the constructors the archive actually uses
(string | integer | boolean | nil | sequence | string-keyed map).
Strings carry the bytes of their UTF-8 encoding. -/
inductive MsgValue where
  | nil : MsgValue
  | bool (b : Bool) : MsgValue
  | int (n : Int) : MsgValue
  | str (s : List Nat) : MsgValue
  | arr (l : List MsgValue) : MsgValue
  | map (l : List (List Nat × MsgValue)) : MsgValue
deriving Repr

/-- msgpack encoding of an integer (the packer's range dispatch; integers
outside `[-2^63, 2^64)` raise `OverflowError`, modelled as `none`). -/
def packInt (n : Int) : Option (List Nat) :=
  if 0 ≤ n then
    if n < 0x80 then some [n.toNat]
    else if n < 0x100 then some [0xcc, n.toNat]
    else if n < 0x10000 then some ([0xcd] ++ be 2 n.toNat)
    else if n < 0x100000000 then some ([0xce] ++ be 4 n.toNat)
    else if n < 0x10000000000000000 then some ([0xcf] ++ be 8 n.toNat)
    else none
  else
    if -0x20 ≤ n then some [(n + 0x100).toNat]
    else if -0x80 ≤ n then some [0xd0, (n + 0x100).toNat]
    else if -0x8000 ≤ n then some ([0xd1] ++ be 2 (n + 0x10000).toNat)
    else if -0x80000000 ≤ n then some ([0xd2] ++ be 4 (n + 0x100000000).toNat)
    else if -0x8000000000000000 ≤ n then
      some ([0xd3] ++ be 8 (n + 0x10000000000000000).toNat)
    else none

/-- msgpack encoding of a string: a fixstr/str8/str16/str32 header followed
by the raw bytes; strings of `2^32` bytes or more cannot be encoded. -/
def packStrBytes (s : List Nat) : Option (List Nat) :=
  if s.length < 0x20 then some ((0xa0 + s.length) :: s)
  else if s.length < 0x100 then some (0xd9 :: s.length :: s)
  else if s.length < 0x10000 then some ([0xda] ++ be 2 s.length ++ s)
  else if s.length < 0x100000000 then some ([0xdb] ++ be 4 s.length ++ s)
  else none

/-- msgpack array header for `n` elements. -/
def arrHeader (n : Nat) : Option (List Nat) :=
  if n < 0x10 then some [0x90 + n]
  else if n < 0x10000 then some ([0xdc] ++ be 2 n)
  else if n < 0x100000000 then some ([0xdd] ++ be 4 n)
  else none

/-- msgpack map header for `n` key/value pairs. -/
def mapHeader (n : Nat) : Option (List Nat) :=
  if n < 0x10 then some [0x80 + n]
  else if n < 0x10000 then some ([0xde] ++ be 2 n)
  else if n < 0x100000000 then some ([0xdf] ++ be 4 n)
  else none

mutual

/-- msgpack encoding of a value (`msgpack.packb`). -/
def packValue : MsgValue → Option (List Nat)
  | .nil => some [0xc0]
  | .bool false => some [0xc2]
  | .bool true => some [0xc3]
  | .int n => packInt n
  | .str s => packStrBytes s
  | .arr l => do
      let hdr ← arrHeader l.length
      let body ← packList l
      pure (hdr ++ body)
  | .map l => do
      let hdr ← mapHeader l.length
      let body ← packMap l
      pure (hdr ++ body)

/-- Concatenated encodings of the elements of an array. -/
def packList : List MsgValue → Option (List Nat)
  | [] => some []
  | v :: t => do
      let hv ← packValue v
      let ht ← packList t
      pure (hv ++ ht)

/-- Concatenated encodings of the key/value pairs of a map. -/
def packMap : List (List Nat × MsgValue) → Option (List Nat)
  | [] => some []
  | (k, v) :: t => do
      let hk ← packStrBytes k
      let hv ← packValue v
      let ht ← packMap t
      pure (hk ++ hv ++ ht)

end

/-- Split off exactly `n` bytes, failing if fewer are available
(the unpacker's "out of data" condition). -/
def takeExact (n : Nat) (bs : List Nat) : Option (List Nat × List Nat) :=
  if n ≤ bs.length then some (bs.take n, bs.drop n) else none

/-- Two's-complement reinterpretation of a `k`-byte big-endian value. -/
def signedOf (k : Nat) (x : Nat) : Int :=
  if x < 2 ^ (8 * k - 1) then (x : Int) else (x : Int) - 2 ^ (8 * k)

mutual

/-- Recursive-descent msgpack parser for one value, returning the value and
the unconsumed tail. `fuel` bounds the call depth; `unpackb` supplies enough
fuel for any input, so exhaustion never decides an outcome there. -/
def parseVal : Nat → List Nat → Option (MsgValue × List Nat)
  | 0, _ => none
  | _ + 1, [] => none
  | fuel + 1, b :: bs =>
    if b ≤ 0x7f then some (.int b, bs)
    else if b ≤ 0x8f then
      (parseMapN fuel (b - 0x80) bs).map fun p => (.map p.1, p.2)
    else if b ≤ 0x9f then
      (parseN fuel (b - 0x90) bs).map fun p => (.arr p.1, p.2)
    else if b ≤ 0xbf then
      (takeExact (b - 0xa0) bs).map fun p => (.str p.1, p.2)
    else if b = 0xc0 then some (.nil, bs)
    else if b = 0xc2 then some (.bool false, bs)
    else if b = 0xc3 then some (.bool true, bs)
    else if b = 0xcc then
      (takeExact 1 bs).map fun p => (.int (beDec p.1), p.2)
    else if b = 0xcd then
      (takeExact 2 bs).map fun p => (.int (beDec p.1), p.2)
    else if b = 0xce then
      (takeExact 4 bs).map fun p => (.int (beDec p.1), p.2)
    else if b = 0xcf then
      (takeExact 8 bs).map fun p => (.int (beDec p.1), p.2)
    else if b = 0xd0 then
      (takeExact 1 bs).map fun p => (.int (signedOf 1 (beDec p.1)), p.2)
    else if b = 0xd1 then
      (takeExact 2 bs).map fun p => (.int (signedOf 2 (beDec p.1)), p.2)
    else if b = 0xd2 then
      (takeExact 4 bs).map fun p => (.int (signedOf 4 (beDec p.1)), p.2)
    else if b = 0xd3 then
      (takeExact 8 bs).map fun p => (.int (signedOf 8 (beDec p.1)), p.2)
    else if b = 0xd9 then do
      let (ln, r) ← takeExact 1 bs
      (takeExact (beDec ln) r).map fun p => (.str p.1, p.2)
    else if b = 0xda then do
      let (ln, r) ← takeExact 2 bs
      (takeExact (beDec ln) r).map fun p => (.str p.1, p.2)
    else if b = 0xdb then do
      let (ln, r) ← takeExact 4 bs
      (takeExact (beDec ln) r).map fun p => (.str p.1, p.2)
    else if b = 0xdc then do
      let (ln, r) ← takeExact 2 bs
      (parseN fuel (beDec ln) r).map fun p => (.arr p.1, p.2)
    else if b = 0xdd then do
      let (ln, r) ← takeExact 4 bs
      (parseN fuel (beDec ln) r).map fun p => (.arr p.1, p.2)
    else if b = 0xde then do
      let (ln, r) ← takeExact 2 bs
      (parseMapN fuel (beDec ln) r).map fun p => (.map p.1, p.2)
    else if b = 0xdf then do
      let (ln, r) ← takeExact 4 bs
      (parseMapN fuel (beDec ln) r).map fun p => (.map p.1, p.2)
    else if b ≤ 0xff then some (.int ((b : Int) - 0x100), bs)
    else none

/-- Parse `n` consecutive values (the body of an array). -/
def parseN : Nat → Nat → List Nat → Option (List MsgValue × List Nat)
  | _, 0, bs => some ([], bs)
  | 0, _ + 1, _ => none
  | fuel + 1, n + 1, bs => do
      let (v, r) ← parseVal fuel bs
      let (l, r2) ← parseN fuel n r
      pure (v :: l, r2)

/-- Parse `n` consecutive key/value pairs (the body of a map). Keys must be
strings (the unpacker's `strict_map_key` behaviour). -/
def parseMapN : Nat → Nat → List Nat → Option (List (List Nat × MsgValue) × List Nat)
  | _, 0, bs => some ([], bs)
  | 0, _ + 1, _ => none
  | fuel + 1, n + 1, bs => do
      let (kv, r) ← parseVal fuel bs
      match kv with
      | .str k => do
          let (v, r2) ← parseVal fuel r
          let (l, r3) ← parseMapN fuel n r2
          pure ((k, v) :: l, r3)
      | _ => none

end

/-- msgpack decoding of a whole buffer (`msgpack.unpackb`): parse one value
and require the buffer to be fully consumed (`ExtraData` otherwise).
The fuel `2 * |bs| + 2` exceeds the parser's maximal call depth on any
input of that length, so it never causes a spurious failure. -/
def unpackb (bs : List Nat) : Option MsgValue :=
  match parseVal (2 * bs.length + 2) bs with
  | some (v, []) => some v
  | _ => none

/-! ## Lemmas about the byte-string helpers -/

theorem le_length (k n : Nat) : (le k n).length = k := by
  induction k generalizing n with
  | zero => rfl
  | succ k ih => simp [le, ih]

theorem leDec_le (k n : Nat) (h : n < 2 ^ (8 * k)) : leDec (le k n) = n := by
  induction k generalizing n with
  | zero => simp [Nat.mul_zero, Nat.pow_zero] at h; simp [le, leDec]; omega
  | succ k ih =>
    have hdiv : n / 256 < 2 ^ (8 * k) := by
      have : 2 ^ (8 * (k + 1)) = 2 ^ (8 * k) * 256 := by ring
      rw [this] at h
      omega
    simp only [le, leDec, List.foldr_cons]
    have := ih (n / 256) hdiv
    simp only [leDec] at this
    rw [this]
    omega

theorem be_length (k n : Nat) : (be k n).length = k := by
  induction k generalizing n with
  | zero => rfl
  | succ k ih => simp [be, ih]

theorem beDec_append_singleton (l : List Nat) (b : Nat) :
    beDec (l ++ [b]) = beDec l * 256 + b := by
  simp [beDec, List.foldl_append]

theorem beDec_be (k n : Nat) (h : n < 2 ^ (8 * k)) : beDec (be k n) = n := by
  induction k generalizing n with
  | zero => simp [Nat.mul_zero, Nat.pow_zero] at h; simp [be, beDec]; omega
  | succ k ih =>
    have hdiv : n / 256 < 2 ^ (8 * k) := by
      have : 2 ^ (8 * (k + 1)) = 2 ^ (8 * k) * 256 := by ring
      rw [this] at h
      omega
    simp only [be, beDec_append_singleton, ih (n / 256) hdiv]
    omega

theorem takeExact_append (a rest : List Nat) :
    takeExact a.length (a ++ rest) = some (a, rest) := by
  simp [takeExact, List.take_left, List.drop_left]

theorem takeExact_append_of_length (n : Nat) (a rest : List Nat)
    (h : a.length = n) : takeExact n (a ++ rest) = some (a, rest) := by
  subst h; exact takeExact_append a rest

/-! ## Fuel accounting for the msgpack parser -/

mutual

/-- An upper bound on the parser call depth needed for one packed value. -/
def needFuel : MsgValue → Nat
  | .nil => 1
  | .bool _ => 1
  | .int _ => 1
  | .str _ => 1
  | .arr l => 1 + needList l
  | .map l => 1 + needMapList l

/-- Depth needed for an array body. -/
def needList : List MsgValue → Nat
  | [] => 1
  | v :: t => 1 + max (needFuel v) (needList t)

/-- Depth needed for a map body. -/
def needMapList : List (List Nat × MsgValue) → Nat
  | [] => 1
  | (_, v) :: t => 1 + max (needFuel v) (needMapList t)

end

theorem needFuel_pos (v : MsgValue) : 1 ≤ needFuel v := by
  cases v <;> simp [needFuel]

theorem needList_pos (l : List MsgValue) : 1 ≤ needList l := by
  cases l <;> simp [needList]

theorem needMapList_pos (l : List (List Nat × MsgValue)) : 1 ≤ needMapList l := by
  cases l with
  | nil => simp [needMapList]
  | cons p t => obtain ⟨k, v⟩ := p; simp [needMapList]

/-! ## The parser inverts the packer -/

theorem takeExact_cons_singleton (b : Nat) (rest : List Nat) :
    takeExact 1 (b :: rest) = some ([b], rest) := by
  simp [takeExact]

theorem parseVal_packInt (fuel : Nat) (n : Int) (out rest : List Nat)
    (h : packInt n = some out) :
    parseVal (fuel + 1) (out ++ rest) = some (.int n, rest) := by
  unfold packInt at h
  split_ifs at h with h0 h1 h2 h3 h4 h5 h6 h7 h8 h9 h10 <;>
    simp only [Option.some.injEq] at h <;> subst h <;>
    simp only [List.append_assoc, List.cons_append, List.nil_append] <;>
    simp only [parseVal]
  · -- positive fixint
    rw [if_pos (by omega)]
    have : (n.toNat : Int) = n := Int.toNat_of_nonneg h0
    rw [this]
  · -- uint8
    iterate 7 rw [if_neg (by norm_num)]
    rw [if_pos trivial, takeExact_cons_singleton, Option.map_some']
    have : beDec [n.toNat] = n.toNat := by simp [beDec]
    rw [this]
    have : (n.toNat : Int) = n := Int.toNat_of_nonneg h0
    rw [this]
  · -- uint16
    iterate 8 rw [if_neg (by norm_num)]
    rw [if_pos trivial,
      takeExact_append_of_length 2 (be 2 n.toNat) rest (be_length 2 n.toNat),
      Option.map_some', beDec_be 2 n.toNat (by omega)]
    have : (n.toNat : Int) = n := Int.toNat_of_nonneg h0
    rw [this]
  · -- uint32
    iterate 9 rw [if_neg (by norm_num)]
    rw [if_pos trivial,
      takeExact_append_of_length 4 (be 4 n.toNat) rest (be_length 4 n.toNat),
      Option.map_some', beDec_be 4 n.toNat (by omega)]
    have : (n.toNat : Int) = n := Int.toNat_of_nonneg h0
    rw [this]
  · -- uint64
    iterate 10 rw [if_neg (by norm_num)]
    rw [if_pos trivial,
      takeExact_append_of_length 8 (be 8 n.toNat) rest (be_length 8 n.toNat),
      Option.map_some', beDec_be 8 n.toNat (by omega)]
    have : (n.toNat : Int) = n := Int.toNat_of_nonneg h0
    rw [this]
  · -- negative fixint
    iterate 22 rw [if_neg (by omega)]
    rw [if_pos (by omega)]
    have : (((n + 0x100).toNat : Nat) : Int) - 0x100 = n := by omega
    rw [this]
  · -- int8
    iterate 11 rw [if_neg (by norm_num)]
    rw [if_pos trivial, takeExact_cons_singleton, Option.map_some']
    have hb : beDec [(n + 0x100).toNat] = (n + 0x100).toNat := by simp [beDec]
    rw [hb]
    unfold signedOf
    rw [if_neg (by norm_num; omega)]
    have : (((n + 0x100).toNat : Nat) : Int) - 2 ^ (8 * 1) = n := by norm_num; omega
    rw [this]
  · -- int16
    iterate 12 rw [if_neg (by norm_num)]
    rw [if_pos trivial,
      takeExact_append_of_length 2 (be 2 (n + 0x10000).toNat) rest
        (be_length 2 (n + 0x10000).toNat),
      Option.map_some', beDec_be 2 (n + 0x10000).toNat (by omega)]
    unfold signedOf
    rw [if_neg (by norm_num; omega)]
    have : (((n + 0x10000).toNat : Nat) : Int) - 2 ^ (8 * 2) = n := by norm_num; omega
    rw [this]
  · -- int32
    iterate 13 rw [if_neg (by norm_num)]
    rw [if_pos trivial,
      takeExact_append_of_length 4 (be 4 (n + 0x100000000).toNat) rest
        (be_length 4 (n + 0x100000000).toNat),
      Option.map_some', beDec_be 4 (n + 0x100000000).toNat (by omega)]
    unfold signedOf
    rw [if_neg (by norm_num; omega)]
    have : (((n + 0x100000000).toNat : Nat) : Int) - 2 ^ (8 * 4) = n := by
      norm_num; omega
    rw [this]
  · -- int64
    iterate 14 rw [if_neg (by norm_num)]
    rw [if_pos trivial,
      takeExact_append_of_length 8 (be 8 (n + 0x10000000000000000).toNat) rest
        (be_length 8 (n + 0x10000000000000000).toNat),
      Option.map_some', beDec_be 8 (n + 0x10000000000000000).toNat (by omega)]
    unfold signedOf
    rw [if_neg (by norm_num; omega)]
    have : (((n + 0x10000000000000000).toNat : Nat) : Int) - 2 ^ (8 * 8) = n := by
      norm_num; omega
    rw [this]

theorem parseVal_packStrBytes (fuel : Nat) (s : List Nat) (out rest : List Nat)
    (h : packStrBytes s = some out) :
    parseVal (fuel + 1) (out ++ rest) = some (.str s, rest) := by
  unfold packStrBytes at h
  split_ifs at h with h0 h1 h2 <;>
    simp only [Option.some.injEq] at h <;> subst h <;>
    simp only [List.append_assoc, List.cons_append, List.nil_append] <;>
    simp only [parseVal]
  · -- fixstr
    iterate 3 rw [if_neg (by omega)]
    rw [if_pos (by omega)]
    have : 0xa0 + s.length - 0xa0 = s.length := by omega
    rw [this, takeExact_append s rest, Option.map_some']
  · -- str8
    iterate 15 rw [if_neg (by norm_num)]
    rw [if_pos trivial]
    rw [takeExact_cons_singleton]
    simp only [Option.bind_eq_bind, Option.some_bind]
    have hb : beDec [s.length] = s.length := by simp [beDec]
    rw [hb, takeExact_append s rest, Option.map_some']
  · -- str16
    iterate 16 rw [if_neg (by norm_num)]
    rw [if_pos trivial]
    rw [takeExact_append_of_length 2 (be 2 s.length) (s ++ rest)
      (be_length 2 s.length)]
    simp only [Option.bind_eq_bind, Option.some_bind]
    rw [beDec_be 2 s.length (by norm_num; omega), takeExact_append s rest,
      Option.map_some']
  · -- str32
    iterate 17 rw [if_neg (by norm_num)]
    rw [if_pos trivial]
    rw [takeExact_append_of_length 4 (be 4 s.length) (s ++ rest)
      (be_length 4 s.length)]
    simp only [Option.bind_eq_bind, Option.some_bind]
    rw [beDec_be 4 s.length (by norm_num; omega), takeExact_append s rest,
      Option.map_some']

theorem packValue_arr_inv {l : List MsgValue} {out : List Nat}
    (h : packValue (.arr l) = some out) :
    ∃ hdr body, arrHeader l.length = some hdr ∧ packList l = some body ∧
      out = hdr ++ body := by
  simp only [packValue, Option.bind_eq_bind] at h
  cases h1 : arrHeader l.length with
  | none => rw [h1] at h; simp at h
  | some hdr =>
    rw [h1] at h
    cases h2 : packList l with
    | none => rw [h2] at h; simp at h
    | some body =>
      rw [h2] at h
      simp only [Option.some_bind, Option.pure_def, Option.some.injEq] at h
      exact ⟨hdr, body, rfl, rfl, h.symm⟩

theorem packValue_map_inv {l : List (List Nat × MsgValue)} {out : List Nat}
    (h : packValue (.map l) = some out) :
    ∃ hdr body, mapHeader l.length = some hdr ∧ packMap l = some body ∧
      out = hdr ++ body := by
  simp only [packValue, Option.bind_eq_bind] at h
  cases h1 : mapHeader l.length with
  | none => rw [h1] at h; simp at h
  | some hdr =>
    rw [h1] at h
    cases h2 : packMap l with
    | none => rw [h2] at h; simp at h
    | some body =>
      rw [h2] at h
      simp only [Option.some_bind, Option.pure_def, Option.some.injEq] at h
      exact ⟨hdr, body, rfl, rfl, h.symm⟩

theorem packList_cons_inv {v : MsgValue} {t : List MsgValue} {out : List Nat}
    (h : packList (v :: t) = some out) :
    ∃ hv ht, packValue v = some hv ∧ packList t = some ht ∧ out = hv ++ ht := by
  simp only [packList, Option.bind_eq_bind] at h
  cases h1 : packValue v with
  | none => rw [h1] at h; simp at h
  | some hv =>
    rw [h1] at h
    cases h2 : packList t with
    | none => rw [h2] at h; simp at h
    | some ht =>
      rw [h2] at h
      simp only [Option.some_bind, Option.pure_def, Option.some.injEq] at h
      exact ⟨hv, ht, rfl, rfl, h.symm⟩

theorem packMap_cons_inv {k : List Nat} {v : MsgValue}
    {t : List (List Nat × MsgValue)} {out : List Nat}
    (h : packMap ((k, v) :: t) = some out) :
    ∃ hk hv ht, packStrBytes k = some hk ∧ packValue v = some hv ∧
      packMap t = some ht ∧ out = hk ++ hv ++ ht := by
  simp only [packMap, Option.bind_eq_bind] at h
  cases h1 : packStrBytes k with
  | none => rw [h1] at h; simp at h
  | some hk =>
    rw [h1] at h
    cases h2 : packValue v with
    | none => rw [h2] at h; simp at h
    | some hv =>
      rw [h2] at h
      cases h3 : packMap t with
      | none => rw [h3] at h; simp at h
      | some ht =>
        rw [h3] at h
        simp only [Option.some_bind, Option.pure_def, Option.some.injEq] at h
        exact ⟨hk, hv, ht, rfl, rfl, rfl, h.symm⟩

theorem parseN_zero (fuel : Nat) (bs : List Nat) :
    parseN (fuel + 1) 0 bs = some ([], bs) := rfl

theorem parseMapN_zero (fuel : Nat) (bs : List Nat) :
    parseMapN (fuel + 1) 0 bs = some ([], bs) := rfl

theorem parseN_succ (fuel n : Nat) (bs : List Nat) :
    parseN (fuel + 1) (n + 1) bs =
      (parseVal fuel bs).bind fun p =>
        (parseN fuel n p.2).bind fun q => some (p.1 :: q.1, q.2) := rfl

theorem parseMapN_succ (fuel n : Nat) (bs : List Nat) :
    parseMapN (fuel + 1) (n + 1) bs =
      (parseVal fuel bs).bind fun p =>
        match p.1 with
        | .str k =>
            (parseVal fuel p.2).bind fun q =>
              (parseMapN fuel n q.2).bind fun w => some ((k, q.1) :: w.1, w.2)
        | _ => none := rfl

theorem parse_pack (fuel : Nat) :
    (∀ v out rest, packValue v = some out → needFuel v ≤ fuel →
      parseVal fuel (out ++ rest) = some (v, rest)) ∧
    (∀ l out rest, packList l = some out → needList l ≤ fuel →
      parseN fuel l.length (out ++ rest) = some (l, rest)) ∧
    (∀ l out rest, packMap l = some out → needMapList l ≤ fuel →
      parseMapN fuel l.length (out ++ rest) = some (l, rest)) := by
  induction fuel with
  | zero =>
    refine ⟨fun v _ _ _ hf => absurd hf (by have := needFuel_pos v; omega),
      fun l _ _ _ hf => absurd hf (by have := needList_pos l; omega),
      fun l _ _ _ hf => absurd hf (by have := needMapList_pos l; omega)⟩
  | succ fuel ih =>
    obtain ⟨ihv, ihl, ihm⟩ := ih
    refine ⟨?_, ?_, ?_⟩
    · intro v out rest hp hf
      cases v with
      | nil =>
        simp only [packValue, Option.some.injEq] at hp
        subst hp
        simp only [List.cons_append, List.nil_append, parseVal]
        iterate 4 rw [if_neg (by norm_num)]
        rw [if_pos trivial]
      | bool b =>
        cases b <;> simp only [packValue, Option.some.injEq] at hp <;>
          subst hp <;>
          simp only [List.cons_append, List.nil_append, parseVal]
        · iterate 5 rw [if_neg (by norm_num)]
          rw [if_pos trivial]
        · iterate 6 rw [if_neg (by norm_num)]
          rw [if_pos trivial]
      | int n =>
        simp only [packValue] at hp
        exact parseVal_packInt fuel n out rest hp
      | str s =>
        simp only [packValue] at hp
        exact parseVal_packStrBytes fuel s out rest hp
      | arr l =>
        obtain ⟨hdr, body, hh, hb, rfl⟩ := packValue_arr_inv hp
        have hfl : needList l ≤ fuel := by
          simp only [needFuel] at hf; omega
        unfold arrHeader at hh
        split_ifs at hh with g0 g1 <;>
          simp only [Option.some.injEq] at hh <;> subst hh <;>
          simp only [List.append_assoc, List.cons_append, List.nil_append] <;>
          simp only [parseVal]
        · iterate 2 rw [if_neg (by omega)]
          rw [if_pos (by omega)]
          have : 0x90 + l.length - 0x90 = l.length := by omega
          rw [this, ihl l body (rest) hb hfl, Option.map_some']
        · iterate 18 rw [if_neg (by norm_num)]
          rw [if_pos trivial,
            takeExact_append_of_length 2 (be 2 l.length) (body ++ rest)
              (be_length 2 l.length)]
          simp only [Option.bind_eq_bind, Option.some_bind]
          rw [beDec_be 2 l.length (by norm_num; omega),
            ihl l body rest hb hfl, Option.map_some']
        · iterate 19 rw [if_neg (by norm_num)]
          rw [if_pos trivial,
            takeExact_append_of_length 4 (be 4 l.length) (body ++ rest)
              (be_length 4 l.length)]
          simp only [Option.bind_eq_bind, Option.some_bind]
          rw [beDec_be 4 l.length (by norm_num; omega),
            ihl l body rest hb hfl, Option.map_some']
      | map l =>
        obtain ⟨hdr, body, hh, hb, rfl⟩ := packValue_map_inv hp
        have hfl : needMapList l ≤ fuel := by
          simp only [needFuel] at hf; omega
        unfold mapHeader at hh
        split_ifs at hh with g0 g1 <;>
          simp only [Option.some.injEq] at hh <;> subst hh <;>
          simp only [List.append_assoc, List.cons_append, List.nil_append] <;>
          simp only [parseVal]
        · rw [if_neg (by omega), if_pos (by omega)]
          have : 0x80 + l.length - 0x80 = l.length := by omega
          rw [this, ihm l body rest hb hfl, Option.map_some']
        · iterate 20 rw [if_neg (by norm_num)]
          rw [if_pos trivial,
            takeExact_append_of_length 2 (be 2 l.length) (body ++ rest)
              (be_length 2 l.length)]
          simp only [Option.bind_eq_bind, Option.some_bind]
          rw [beDec_be 2 l.length (by norm_num; omega),
            ihm l body rest hb hfl, Option.map_some']
        · iterate 21 rw [if_neg (by norm_num)]
          rw [if_pos trivial,
            takeExact_append_of_length 4 (be 4 l.length) (body ++ rest)
              (be_length 4 l.length)]
          simp only [Option.bind_eq_bind, Option.some_bind]
          rw [beDec_be 4 l.length (by norm_num; omega),
            ihm l body rest hb hfl, Option.map_some']
    · intro l out rest hp hf
      cases l with
      | nil =>
        simp only [packList, Option.some.injEq] at hp
        subst hp
        rfl
      | cons v t =>
        obtain ⟨hv, ht, h1, h2, rfl⟩ := packList_cons_inv hp
        have hf1 : needFuel v ≤ fuel := by simp only [needList] at hf; omega
        have hf2 : needList t ≤ fuel := by simp only [needList] at hf; omega
        simp only [List.length_cons, List.append_assoc]
        rw [parseN_succ, ihv v hv (ht ++ rest) h1 hf1]
        simp only [Option.some_bind]
        rw [ihl t ht rest h2 hf2]
        simp only [Option.some_bind]
    · intro l out rest hp hf
      cases l with
      | nil =>
        simp only [packMap, Option.some.injEq] at hp
        subst hp
        rfl
      | cons p t =>
        obtain ⟨k, v⟩ := p
        obtain ⟨hk, hv, ht, h1, h2, h3, rfl⟩ := packMap_cons_inv hp
        have hf1 : needFuel v ≤ fuel := by simp only [needMapList] at hf; omega
        have hf2 : needMapList t ≤ fuel := by
          simp only [needMapList] at hf; omega
        have hf0 : needFuel (.str k) ≤ fuel := by
          have := needMapList_pos t
          simp only [needFuel, needMapList] at hf ⊢
          omega
        have hks : packValue (.str k) = some hk := by
          simp only [packValue]; exact h1
        simp only [List.length_cons, List.append_assoc]
        rw [parseMapN_succ, ihv (.str k) hk (hv ++ (ht ++ rest)) hks hf0]
        simp only [Option.some_bind]
        rw [ihv v hv (ht ++ rest) h2 hf1]
        simp only [Option.some_bind]
        rw [ihm t ht rest h3 hf2]
        simp only [Option.some_bind]

theorem packValue_length_pos (v : MsgValue) (out : List Nat)
    (h : packValue v = some out) : 1 ≤ out.length := by
  cases v with
  | nil => simp only [packValue, Option.some.injEq] at h; subst h; simp
  | bool b =>
    cases b <;> simp only [packValue, Option.some.injEq] at h <;> subst h <;>
      simp
  | int n =>
    simp only [packValue] at h
    unfold packInt at h
    split_ifs at h <;> simp only [Option.some.injEq] at h <;> subst h <;>
      simp [be_length]
  | str s =>
    simp only [packValue] at h
    unfold packStrBytes at h
    split_ifs at h <;> simp only [Option.some.injEq] at h <;> subst h <;>
      simp [be_length]
  | arr l =>
    obtain ⟨hdr, body, hh, hb, rfl⟩ := packValue_arr_inv h
    unfold arrHeader at hh
    split_ifs at hh <;> simp only [Option.some.injEq] at hh <;> subst hh <;>
      simp [be_length]
  | map l =>
    obtain ⟨hdr, body, hh, hb, rfl⟩ := packValue_map_inv h
    unfold mapHeader at hh
    split_ifs at hh <;> simp only [Option.some.injEq] at hh <;> subst hh <;>
      simp [be_length]

mutual

theorem needFuel_le_len : ∀ (v : MsgValue) (out : List Nat),
    packValue v = some out → needFuel v ≤ 2 * out.length
  | .nil, out, h => by
    have := packValue_length_pos .nil out h
    simp only [needFuel]
    omega
  | .bool b, out, h => by
    have := packValue_length_pos (.bool b) out h
    simp only [needFuel]
    omega
  | .int n, out, h => by
    have := packValue_length_pos (.int n) out h
    simp only [needFuel]
    omega
  | .str s, out, h => by
    have := packValue_length_pos (.str s) out h
    simp only [needFuel]
    omega
  | .arr l, out, h => by
    obtain ⟨hdr, body, hh, hb, rfl⟩ := packValue_arr_inv h
    have h1 : needList l ≤ 2 * body.length + 1 := needList_le_len l body hb
    have h2 : 1 ≤ hdr.length := by
      unfold arrHeader at hh
      split_ifs at hh <;> simp only [Option.some.injEq] at hh <;> subst hh <;>
        simp [be_length]
    simp only [needFuel, List.length_append]
    omega
  | .map l, out, h => by
    obtain ⟨hdr, body, hh, hb, rfl⟩ := packValue_map_inv h
    have h1 : needMapList l ≤ 2 * body.length + 1 := needMapList_le_len l body hb
    have h2 : 1 ≤ hdr.length := by
      unfold mapHeader at hh
      split_ifs at hh <;> simp only [Option.some.injEq] at hh <;> subst hh <;>
        simp [be_length]
    simp only [needFuel, List.length_append]
    omega

theorem needList_le_len : ∀ (l : List MsgValue) (out : List Nat),
    packList l = some out → needList l ≤ 2 * out.length + 1
  | [], out, h => by
    simp only [packList, Option.some.injEq] at h
    subst h
    simp [needList]
  | v :: t, out, h => by
    obtain ⟨hv, ht, h1, h2, rfl⟩ := packList_cons_inv h
    have b1 : needFuel v ≤ 2 * hv.length := needFuel_le_len v hv h1
    have b2 : needList t ≤ 2 * ht.length + 1 := needList_le_len t ht h2
    have b3 : 1 ≤ hv.length := packValue_length_pos v hv h1
    simp only [needList, List.length_append]
    omega

theorem needMapList_le_len : ∀ (l : List (List Nat × MsgValue)) (out : List Nat),
    packMap l = some out → needMapList l ≤ 2 * out.length + 1
  | [], out, h => by
    simp only [packMap, Option.some.injEq] at h
    subst h
    simp [needMapList]
  | (k, v) :: t, out, h => by
    obtain ⟨hk, hv, ht, h1, h2, h3, rfl⟩ := packMap_cons_inv h
    have b1 : needFuel v ≤ 2 * hv.length := needFuel_le_len v hv h2
    have b2 : needMapList t ≤ 2 * ht.length + 1 := needMapList_le_len t ht h3
    have b3 : 1 ≤ hv.length := packValue_length_pos v hv h2
    simp only [needMapList, List.length_append]
    omega

end

/-- The whole-buffer round trip: `unpackb` inverts `packValue`. -/
theorem unpackb_packValue (v : MsgValue) (out : List Nat)
    (h : packValue v = some out) : unpackb out = some v := by
  have hb := needFuel_le_len v out h
  have hp := (parse_pack (2 * out.length + 2)).1 v out [] h (by omega)
  rw [List.append_nil] at hp
  unfold unpackb
  rw [hp]

/-! ## CRC-32 (`zlib.crc32`) -/

/-- The reflected CRC-32 polynomial used by `zlib.crc32`. -/
def CRCPOLY : Nat := 0xEDB88320

/-- One bit-step of the reflected CRC-32: shift right, conditionally
xor the polynomial. -/
def crcStep (c : Nat) : Nat :=
  if c % 2 = 1 then c / 2 ^^^ CRCPOLY else c / 2

/-- Fold one message byte into the CRC state. -/
def crcByte (c b : Nat) : Nat :=
  crcStep^[8] (c ^^^ b)

/-- `zlib.crc32` of a byte string (initial value `0xFFFFFFFF`, final
complement). -/
def crc32 (bs : List Nat) : Nat :=
  (bs.foldl crcByte 0xFFFFFFFF) ^^^ 0xFFFFFFFF

/-! ### CRC-32 algebra: the state update is GF(2)-linear and injective,
so any single-bit difference in the message changes the checksum. -/

theorem crcStep_zero : crcStep 0 = 0 := rfl

theorem crcStep_lt (c : Nat) (h : c < 2 ^ 32) : crcStep c < 2 ^ 32 := by
  unfold crcStep
  split_ifs
  · exact Nat.xor_lt_two_pow (by omega) (by norm_num [CRCPOLY])
  · omega

theorem xor_div_two (a b : Nat) : (a ^^^ b) / 2 = a / 2 ^^^ b / 2 := by
  apply Nat.eq_of_testBit_eq
  intro i
  simp only [Nat.testBit_div_two, Nat.testBit_xor]

theorem xor_mod_two (a b : Nat) : (a ^^^ b) % 2 = (a % 2 + b % 2) % 2 := by
  have ha := Nat.mod_two_eq_zero_or_one a
  have hb := Nat.mod_two_eq_zero_or_one b
  have h := Nat.testBit_xor a b 0
  simp only [Nat.testBit_zero] at h
  rcases ha with ha | ha <;> rcases hb with hb | hb <;>
    simp [ha, hb] at h ⊢ <;> omega

theorem crcStep_xor (a b : Nat) :
    crcStep (a ^^^ b) = crcStep a ^^^ crcStep b := by
  unfold crcStep
  have hm := xor_mod_two a b
  have hd := xor_div_two a b
  have ha := Nat.mod_two_eq_zero_or_one a
  have hb := Nat.mod_two_eq_zero_or_one b
  rcases ha with ha | ha <;> rcases hb with hb | hb
  · rw [if_neg (by omega), if_neg (by omega), if_neg (by omega), hd]
  · rw [if_pos (by omega), if_neg (by omega), if_pos (by omega), hd]
    apply Nat.eq_of_testBit_eq
    intro i
    simp [Nat.testBit_xor, Bool.xor_assoc, Bool.xor_comm, Bool.xor_left_comm]
  · rw [if_pos (by omega), if_pos (by omega), if_neg (by omega), hd]
    apply Nat.eq_of_testBit_eq
    intro i
    simp [Nat.testBit_xor, Bool.xor_assoc, Bool.xor_comm, Bool.xor_left_comm]
  · rw [if_neg (by omega), if_pos (by omega), if_pos (by omega), hd]
    apply Nat.eq_of_testBit_eq
    intro i
    simp [Nat.testBit_xor, Bool.xor_assoc, Bool.xor_comm, Bool.xor_left_comm,
      Bool.xor_self]

theorem crcStep_inj (a b : Nat) (ha : a < 2 ^ 32) (hb : b < 2 ^ 32)
    (h : crcStep a = crcStep b) : a = b := by
  unfold crcStep at h
  have hp : (0xEDB88320 : Nat) = CRCPOLY := rfl
  have h31 : 2 ^ 31 ≤ CRCPOLY := by rw [← hp]; norm_num
  split_ifs at h with g1 g2 g2
  · -- both odd
    have : a / 2 = b / 2 := by
      have := congrArg (fun x => x ^^^ CRCPOLY) h
      simpa [Nat.xor_assoc] using this
    omega
  · -- a odd, b even: left has bit 31 set, right does not
    exfalso
    have hlt : a / 2 < 2 ^ 31 := by omega
    have hbit : (a / 2 ^^^ CRCPOLY).testBit 31 = true := by
      rw [Nat.testBit_xor]
      have h1 : (a / 2).testBit 31 = false := by
        apply Nat.testBit_lt_two_pow
        exact hlt
      have h2 : CRCPOLY.testBit 31 = true := by decide
      simp [h1, h2]
    have hbit2 : (b / 2).testBit 31 = false := by
      apply Nat.testBit_lt_two_pow
      omega
    rw [h] at hbit
    rw [hbit2] at hbit
    exact Bool.noConfusion hbit
  · -- a even, b odd: symmetric
    exfalso
    have hlt : b / 2 < 2 ^ 31 := by omega
    have hbit : (b / 2 ^^^ CRCPOLY).testBit 31 = true := by
      rw [Nat.testBit_xor]
      have h1 : (b / 2).testBit 31 = false := by
        apply Nat.testBit_lt_two_pow
        exact hlt
      have h2 : CRCPOLY.testBit 31 = true := by decide
      simp [h1, h2]
    have hbit2 : (a / 2).testBit 31 = false := by
      apply Nat.testBit_lt_two_pow
      omega
    rw [← h] at hbit
    rw [hbit2] at hbit
    exact Bool.noConfusion hbit
  · -- both even
    omega

theorem crcIter_zero (n : Nat) : crcStep^[n] 0 = 0 := by
  induction n with
  | zero => rfl
  | succ n ih => rw [Function.iterate_succ_apply, crcStep_zero, ih]

theorem crcIter_lt (n c : Nat) (h : c < 2 ^ 32) : crcStep^[n] c < 2 ^ 32 := by
  induction n generalizing c with
  | zero => simpa
  | succ n ih => rw [Function.iterate_succ_apply]; exact ih _ (crcStep_lt c h)

theorem crcIter_xor (n a b : Nat) :
    crcStep^[n] (a ^^^ b) = crcStep^[n] a ^^^ crcStep^[n] b := by
  induction n generalizing a b with
  | zero => simp
  | succ n ih =>
    rw [Function.iterate_succ_apply, Function.iterate_succ_apply,
      Function.iterate_succ_apply, crcStep_xor, ih]

theorem crcIter_inj (n a b : Nat) (ha : a < 2 ^ 32) (hb : b < 2 ^ 32)
    (h : crcStep^[n] a = crcStep^[n] b) : a = b := by
  induction n generalizing a b with
  | zero => simpa using h
  | succ n ih =>
    rw [Function.iterate_succ_apply, Function.iterate_succ_apply] at h
    exact crcStep_inj a b ha hb (ih _ _ (crcStep_lt a ha) (crcStep_lt b hb) h)

theorem crcByte_xor (c d x y : Nat) :
    crcByte (c ^^^ d) (x ^^^ y) = crcByte c x ^^^ crcByte d y := by
  unfold crcByte
  rw [← crcIter_xor]
  congr 1
  rw [Nat.xor_assoc, Nat.xor_comm d (x ^^^ y), Nat.xor_assoc, Nat.xor_comm y d,
    ← Nat.xor_assoc, ← Nat.xor_assoc]

theorem crcByte_zero_zero : crcByte 0 0 = 0 := by
  unfold crcByte
  rw [Nat.xor_zero, crcIter_zero]

theorem foldl_crcByte_xor (m Δ : List Nat) (c d : Nat)
    (h : m.length = Δ.length) :
    List.foldl crcByte (c ^^^ d) (List.zipWith (fun a b => a ^^^ b) m Δ) =
      List.foldl crcByte c m ^^^ List.foldl crcByte d Δ := by
  induction m generalizing Δ c d with
  | nil =>
    cases Δ with
    | nil => simp
    | cons x t => simp at h
  | cons x t ih =>
    cases Δ with
    | nil => simp at h
    | cons y u =>
      simp only [List.zipWith_cons_cons, List.foldl_cons]
      rw [crcByte_xor]
      exact ih u (crcByte c x) (crcByte d y) (by simpa using h)

theorem zipWith_xor_replicate_zero (t : List Nat) :
    List.zipWith (fun a b => a ^^^ b) t (List.replicate t.length 0) = t := by
  induction t with
  | nil => rfl
  | cons x u ih => simp [List.replicate_succ, ih]

theorem set_eq_zipWith_xor (m : List Nat) (j δ : Nat) (hj : j < m.length) :
    m.set j (m.getD j 0 ^^^ δ) =
      List.zipWith (fun a b => a ^^^ b) m
        (List.replicate j 0 ++ δ :: List.replicate (m.length - j - 1) 0) := by
  induction m generalizing j with
  | nil => simp at hj
  | cons x t ih =>
    cases j with
    | zero =>
      simp only [List.getD_cons_zero, List.set_cons_zero, List.replicate,
        List.nil_append, List.zipWith_cons_cons, List.length_cons]
      congr 1
      have he : t.length + 1 - 0 - 1 = t.length := by omega
      rw [he, zipWith_xor_replicate_zero]
    | succ j =>
      simp only [List.getD_cons_succ, List.set_cons_succ, List.replicate_succ,
        List.cons_append, List.zipWith_cons_cons, Nat.xor_zero,
        List.length_cons]
      rw [ih j (by simpa using hj)]
      have he : t.length + 1 - (j + 1) - 1 = t.length - j - 1 := by omega
      rw [he]

theorem foldl_crcByte_replicate_zero (j : Nat) :
    List.foldl crcByte 0 (List.replicate j 0) = 0 := by
  induction j with
  | zero => rfl
  | succ j ih => simpa [List.replicate_succ, crcByte_zero_zero] using ih

theorem foldl_crcByte_zero_tail (t : Nat) (c : Nat) (hc0 : c ≠ 0)
    (hc : c < 2 ^ 32) :
    List.foldl crcByte c (List.replicate t 0) ≠ 0 := by
  induction t generalizing c with
  | zero => simpa
  | succ t ih =>
    simp only [List.replicate_succ, List.foldl_cons]
    apply ih
    · intro h
      apply hc0
      have : crcByte c 0 = crcByte 0 0 := by rw [h, crcByte_zero_zero]
      unfold crcByte at this
      rw [Nat.xor_zero, Nat.xor_zero] at this
      exact crcIter_inj 8 c 0 hc (by norm_num) this
    · unfold crcByte
      rw [Nat.xor_zero]
      exact crcIter_lt 8 c hc

theorem foldl_crcByte_replicate_lt (t : Nat) (c : Nat) (hc : c < 2 ^ 32) :
    List.foldl crcByte c (List.replicate t 0) < 2 ^ 32 := by
  induction t generalizing c with
  | zero => simpa
  | succ t ih =>
    simp only [List.replicate_succ, List.foldl_cons]
    apply ih
    unfold crcByte
    rw [Nat.xor_zero]
    exact crcIter_lt 8 c hc

theorem crcDiff_props (j tail δ : Nat) (hδ0 : δ ≠ 0) (hδ : δ < 2 ^ 32) :
    List.foldl crcByte 0
        (List.replicate j 0 ++ δ :: List.replicate tail 0) ≠ 0 ∧
      List.foldl crcByte 0
        (List.replicate j 0 ++ δ :: List.replicate tail 0) < 2 ^ 32 := by
  rw [List.foldl_append, foldl_crcByte_replicate_zero, List.foldl_cons]
  have hstart0 : crcByte 0 δ ≠ 0 := by
    intro h
    apply hδ0
    unfold crcByte at h
    rw [Nat.zero_xor] at h
    have h2 : crcStep^[8] δ = crcStep^[8] 0 := by rw [h, crcIter_zero]
    exact crcIter_inj 8 δ 0 hδ (by norm_num) h2
  have hstartlt : crcByte 0 δ < 2 ^ 32 := by
    unfold crcByte
    rw [Nat.zero_xor]
    exact crcIter_lt 8 δ hδ
  exact ⟨foldl_crcByte_zero_tail tail _ hstart0 hstartlt,
    foldl_crcByte_replicate_lt tail _ hstartlt⟩

/-- Flipping bits (xor with a non-zero `δ < 2^32`) in one byte of a message
changes its masked CRC-32. -/
theorem crc32_set_ne (m : List Nat) (j δ : Nat) (hj : j < m.length)
    (hδ0 : δ ≠ 0) (hδ : δ < 2 ^ 32) :
    crc32 (m.set j (m.getD j 0 ^^^ δ)) &&& 0xFFFFFFFF ≠
      crc32 m &&& 0xFFFFFFFF := by
  set Δ : List Nat :=
    List.replicate j 0 ++ δ :: List.replicate (m.length - j - 1) 0 with hΔ
  have hΔlen : m.length = Δ.length := by
    simp only [hΔ, List.length_append, List.length_replicate, List.length_cons]
    omega
  set D : Nat := List.foldl crcByte 0 Δ with hD
  obtain ⟨hD0, hDlt⟩ := crcDiff_props j (m.length - j - 1) δ hδ0 hδ
  rw [← hΔ, ← hD] at hD0 hDlt
  have hraw : List.foldl crcByte 0xFFFFFFFF (m.set j (m.getD j 0 ^^^ δ)) =
      List.foldl crcByte 0xFFFFFFFF m ^^^ D := by
    rw [set_eq_zipWith_xor m j δ hj, ← hΔ, hD]
    have : (0xFFFFFFFF : Nat) = 0xFFFFFFFF ^^^ 0 := by simp
    rw [this]
    exact foldl_crcByte_xor m Δ 0xFFFFFFFF 0 hΔlen
  have hcrc : crc32 (m.set j (m.getD j 0 ^^^ δ)) = crc32 m ^^^ D := by
    unfold crc32
    rw [hraw, Nat.xor_assoc, Nat.xor_comm D _, ← Nat.xor_assoc]
  rw [hcrc]
  -- a non-zero difference below `2^32` survives the mask
  obtain ⟨k, hk⟩ : ∃ k, D.testBit k = true := by
    by_contra hc
    push_neg at hc
    apply hD0
    apply Nat.eq_of_testBit_eq
    intro i
    simp [Nat.zero_testBit]
    simpa using hc i
  have hk32 : k < 32 := by
    have h1 : 2 ^ k ≤ D := Nat.testBit_implies_ge hk
    have h2 : (2 : Nat) ^ k < 2 ^ 32 := by omega
    exact (Nat.pow_lt_pow_iff_right (by norm_num)).mp h2
  intro heq
  have := congrArg (fun x => x.testBit k) heq
  simp only [Nat.testBit_and, Nat.testBit_xor] at this
  have hmask : (0xFFFFFFFF : Nat).testBit k = true := by
    have : (0xFFFFFFFF : Nat) = 2 ^ 32 - 1 := by norm_num
    rw [this, Nat.testBit_two_pow_sub_one]
    simpa using hk32
  rw [hmask, hk] at this
  simp at this

/-! ## Exceptions (`exceptions.py`, plus the Python builtins `core.py`
can raise) -/

/-- The exceptions load/extract can surface. The first six constructors are
the library's own taxonomy from `exceptions.py` (subclasses of `MFAFError`);
`keyError`, `typeError` and `valueError` model the Python builtins of the
same names, which are not part of that taxonomy. `attributeError` models the
builtin raised when a metadata record is not a map. -/
inductive PyExc where
  | magicError : PyExc
  | sizeError : PyExc
  | crcError : PyExc
  | rangeError : PyExc
  | msgpackError : PyExc
  | versionError : PyExc
  | keyError (name : List Nat) : PyExc
  | typeError : PyExc
  | valueError : PyExc
  | attributeError : PyExc
deriving Repr, DecidableEq

/-- Whether an exception belongs to the library's own `MFAFError` taxonomy
(`exceptions.py` defines exactly these six kinds). -/
def PyExc.isMFAFError : PyExc → Bool
  | .magicError | .sizeError | .crcError | .rangeError
  | .msgpackError | .versionError => true
  | _ => false

/-! ## Data model (`core.py`) -/

/-- Magic numbers: `HEADER_MAGIC = b'MAFFILE\x01'`. -/
def HEADER_MAGIC : List Nat := [0x4D, 0x41, 0x46, 0x46, 0x49, 0x4C, 0x45, 0x01]

/-- `FOOTER_MAGIC = b'ENDMAF\x00\x00'`. -/
def FOOTER_MAGIC : List Nat := [0x45, 0x4E, 0x44, 0x4D, 0x41, 0x46, 0x00, 0x00]

/-- `HEADER_SIZE = 64`. -/
def HEADER_SIZE : Nat := 64

/-- `FOOTER_SIZE = 64`. -/
def FOOTER_SIZE : Nat := 64

/-- One entry of an archive (`MFAFEntry`). `offset` and `size` are `Int`
because on load they are taken from msgpack integers, which Python stores
unchecked. -/
structure MFAFEntry where
  name : List Nat
  content : List Nat
  mime_type : List Nat
  attributes : List (List Nat × MsgValue)
  offset : Int
  size : Int
deriving Repr

/-- `MFAFEntry.__init__`: content defaults shown at call sites; `offset = 0`,
`size = len(content)`. -/
def MFAFEntry.mkNew (name content mime_type : List Nat)
    (attributes : List (List Nat × MsgValue)) : MFAFEntry :=
  { name := name, content := content, mime_type := mime_type,
    attributes := attributes, offset := 0, size := content.length }

/-- The default MIME type `'application/octet-stream'` (UTF-8 bytes). -/
def DEFAULT_MIME : List Nat :=
  [97, 112, 112, 108, 105, 99, 97, 116, 105, 111, 110, 47,
   111, 99, 116, 101, 116, 45, 115, 116, 114, 101, 97, 109]

/-- The msgpack map keys `'n'`, `'o'`, `'s'`, `'m'`, `'a'`. -/
def keyN : List Nat := [0x6E]

/-- Key `'o'`. -/
def keyO : List Nat := [0x6F]

/-- Key `'s'`. -/
def keyS : List Nat := [0x73]

/-- Key `'m'`. -/
def keyM : List Nat := [0x6D]

/-- Key `'a'`. -/
def keyA : List Nat := [0x61]

/-- `MFAFEntry.to_dict`: the compact keyed transport record; the `'a'` key is
present only when the attribute map is non-empty. Python dicts preserve
insertion order, so the record is an ordered msgpack map. -/
def MFAFEntry.to_dict (e : MFAFEntry) : MsgValue :=
  .map ([(keyN, .str e.name), (keyO, .int e.offset),
         (keyS, .int e.size), (keyM, .str e.mime_type)] ++
    (match e.attributes with
     | [] => []
     | _ => [(keyA, .map e.attributes)]))

/-- An archive (`MFAFFile`). -/
structure MFAFFile where
  entries : List MFAFEntry
  version : Nat
  flags : Nat
  total_size : Nat
deriving Repr

/-- `MFAFFile.__init__`: empty archive, version 1, flags 0,
`total_size = HEADER_SIZE + FOOTER_SIZE`. -/
def MFAFFile.new : MFAFFile :=
  { entries := [], version := 1, flags := 0,
    total_size := HEADER_SIZE + FOOTER_SIZE }

/-- `add_entry` appends. -/
def MFAFFile.add_entry (a : MFAFFile) (e : MFAFEntry) : MFAFFile :=
  { a with entries := a.entries ++ [e] }

/-! ## Encode (`MFAFFile.save`) -/

/-- The offset-assignment loop of `save`: walk the entries, set each
`offset` to the running position, advance by that entry's `size`. -/
def assignOffsets : Int → List MFAFEntry → List MFAFEntry
  | _, [] => []
  | off, e :: t => { e with offset := off } :: assignOffsets (off + e.size) t

/-- The fixed 64-byte header `struct.pack('<8sQQQIHH24x', ...)`. -/
def headerBytes (total_size metadata_offset entry_count version flags : Nat) :
    List Nat :=
  HEADER_MAGIC ++ le 8 total_size ++ le 8 HEADER_SIZE ++ le 8 metadata_offset ++
    le 4 entry_count ++ le 2 version ++ le 2 flags ++ List.replicate 24 0

/-- The fixed 64-byte footer `struct.pack('<8sQI44x', ...)`. -/
def footerBytes (metadata_end checksum : Nat) : List Nat :=
  FOOTER_MAGIC ++ le 8 metadata_end ++ le 4 checksum ++ List.replicate 44 0

/-- `MFAFFile.save`, modelled as a pure function from the archive to the
mutated archive (entry offsets assigned in place, `total_size` updated)
together with the bytes written. `none` models the exceptions `save` itself
can raise: `msgpack.packb` overflow, and `struct.pack` range errors on the
`Q`/`I`/`H` header fields. -/
def MFAFFile.save (a : MFAFFile) : Option (MFAFFile × List Nat) :=
  let content_offset := HEADER_SIZE
  let content_size := (a.entries.map fun e => e.content.length).sum
  let entries' := assignOffsets (content_offset : Int) a.entries
  let metadata_offset := content_offset + content_size
  match packValue (.arr (entries'.map MFAFEntry.to_dict)) with
  | none => none
  | some metadata_bytes =>
    let metadata_end := metadata_offset + metadata_bytes.length
    let total_size := metadata_end + FOOTER_SIZE
    if total_size < 2 ^ 64 ∧ a.entries.length < 2 ^ 32 ∧
        a.version < 2 ^ 16 ∧ a.flags < 2 ^ 16 then
      some ({ a with entries := entries', total_size := total_size },
        headerBytes total_size metadata_offset a.entries.length a.version a.flags
          ++ entries'.flatMap (fun e => e.content)
          ++ metadata_bytes
          ++ footerBytes metadata_end (crc32 metadata_bytes &&& 0xFFFFFFFF))
    else none

/-! ## Decode (`MFAFFile.load`) -/

/-- Python `dict` built from msgpack map pairs, looked up by key: with
duplicate keys the later pair wins, absent keys give `none` (`dict.get`). -/
def dictGet (l : List (List Nat × MsgValue)) (k : List Nat) : Option MsgValue :=
  l.foldl (fun acc p => if p.1 = k then some p.2 else acc) none

/-- `MFAFEntry.from_dict` on a decoded metadata record. A record that is not
a map raises `AttributeError` (no `.get`). Records whose fields have
unexpected msgpack types are stored unchecked by Python; this typed model
maps them to `typeError` instead — no claim quantifies over such inputs.
A `nil` attribute value becomes the empty map (`attributes or {}`). -/
def fromDictVal : MsgValue → Except PyExc MFAFEntry
  | .map l =>
    match (dictGet l keyN).getD (.str []), (dictGet l keyM).getD (.str DEFAULT_MIME),
        (dictGet l keyA).getD (.map []), (dictGet l keyO).getD (.int 0),
        (dictGet l keyS).getD (.int 0) with
    | .str n, .str m, .map att, .int o, .int s =>
        .ok { name := n, content := [], mime_type := m, attributes := att,
              offset := o, size := s }
    | .str n, .str m, .nil, .int o, .int s =>
        .ok { name := n, content := [], mime_type := m, attributes := [],
              offset := o, size := s }
    | _, _, _, _, _ => .error .typeError
  | _ => .error .attributeError

/-- The entry loop of `load`: for each metadata record reconstruct the entry
and slice its content from the source at `[offset, offset+size)`. The slice
is not range-checked: `f.seek`/`f.read` simply come back short past the end
of the data. A negative offset makes `f.seek` raise `ValueError`. -/
def readEntries (data : List Nat) : List MsgValue → Except PyExc (List MFAFEntry)
  | [] => .ok []
  | item :: rest => do
      let e ← fromDictVal item
      if e.offset < 0 then .error .valueError else
      let e' := { e with content := pyRead data e.offset.toNat e.size }
      let t ← readEntries data rest
      .ok (e' :: t)

/-- Python `for item in x` on an unpacked msgpack value: lists yield their
elements, dicts their keys, strings their characters (modelled bytewise);
other values raise `TypeError`. -/
def iterVal : MsgValue → Option (List MsgValue)
  | .arr l => some l
  | .map l => some (l.map fun p => .str p.1)
  | .str s => some (s.map fun c => .str [c])
  | _ => none

/-- The structural consistency gate of `load`, verbatim from the source:
`metadata_offset + (metadata_end - metadata_offset) + FOOTER_SIZE ==
total_size`, over Python's unbounded integers. -/
def sizeGate (metadata_offset metadata_end total_size : Int) : Bool :=
  metadata_offset + (metadata_end - metadata_offset) + (FOOTER_SIZE : Int) ==
    total_size

/-- `MFAFFile.load` on an in-memory byte source, following the source's gate
order: header size, header magic, version, footer size (provably dead once
the header gate passed), footer magic, structural size gate, checksum,
metadata parse, entry reconstruction. `content_offset` and `file_count` are
unpacked by the source but never used. -/
def MFAFFile.load (data : List Nat) : Except PyExc MFAFFile :=
  let header_data := data.take HEADER_SIZE
  if header_data.length < HEADER_SIZE then .error .sizeError else
  if slice header_data 0 8 ≠ HEADER_MAGIC then .error .magicError else
  let total_size := leDec (slice header_data 8 8)
  let metadata_offset := leDec (slice header_data 24 8)
  let version := leDec (slice header_data 36 2)
  let flags := leDec (slice header_data 38 2)
  if version > 1 then .error .versionError else
  let footer_data := slice data (data.length - FOOTER_SIZE) FOOTER_SIZE
  if footer_data.length < FOOTER_SIZE then .error .sizeError else
  if slice footer_data 0 8 ≠ FOOTER_MAGIC then .error .magicError else
  let metadata_end := leDec (slice footer_data 8 8)
  let checksum := leDec (slice footer_data 16 4)
  if ¬ sizeGate (metadata_offset : Int) (metadata_end : Int) (total_size : Int)
    then .error .sizeError else
  let metadata_bytes :=
    pyRead data metadata_offset ((metadata_end : Int) - (metadata_offset : Int))
  if crc32 metadata_bytes &&& 0xFFFFFFFF ≠ checksum then .error .crcError else
  match unpackb metadata_bytes with
  | none => .error .msgpackError
  | some v =>
    match iterVal v with
    | none => .error .typeError
    | some items =>
      (readEntries data items).map fun es =>
        { entries := es, version := version, flags := flags,
          total_size := total_size }

/-! ## Layout lemmas for the encoded byte string -/

theorem take_append_len {α : Type} (A B : List α) (n : Nat) (h : A.length = n) :
    (A ++ B).take n = A := by
  subst h; exact List.take_left A B

theorem drop_append_len {α : Type} (A B : List α) (n : Nat) (h : A.length = n) :
    (A ++ B).drop n = B := by
  subst h; exact List.drop_left A B

theorem headerBytes_length (t mo c v f : Nat) :
    (headerBytes t mo c v f).length = 64 := by
  simp [headerBytes, HEADER_MAGIC, le_length]

theorem footerBytes_length (me ck : Nat) : (footerBytes me ck).length = 64 := by
  simp [footerBytes, FOOTER_MAGIC, le_length]

theorem headerBytes_magic (t mo c v f : Nat) :
    slice (headerBytes t mo c v f) 0 8 = HEADER_MAGIC := by
  simp [headerBytes, HEADER_MAGIC, le, slice]

theorem headerBytes_total (t mo c v f : Nat) (ht : t < 2 ^ 64) :
    leDec (slice (headerBytes t mo c v f) 8 8) = t := by
  simp [headerBytes, HEADER_MAGIC, le, slice, leDec]
  omega

theorem headerBytes_mo (t mo c v f : Nat) (hmo : mo < 2 ^ 64) :
    leDec (slice (headerBytes t mo c v f) 24 8) = mo := by
  simp [headerBytes, HEADER_MAGIC, le, slice, leDec]
  omega

theorem headerBytes_version (t mo c v f : Nat) (hv : v < 2 ^ 16) :
    leDec (slice (headerBytes t mo c v f) 36 2) = v := by
  simp [headerBytes, HEADER_MAGIC, le, slice, leDec]
  omega

theorem headerBytes_flags (t mo c v f : Nat) (hf : f < 2 ^ 16) :
    leDec (slice (headerBytes t mo c v f) 38 2) = f := by
  simp [headerBytes, HEADER_MAGIC, le, slice, leDec]
  omega

theorem footerBytes_magic (me ck : Nat) :
    slice (footerBytes me ck) 0 8 = FOOTER_MAGIC := by
  simp [footerBytes, FOOTER_MAGIC, le, slice]

theorem footerBytes_me (me ck : Nat) (hme : me < 2 ^ 64) :
    leDec (slice (footerBytes me ck) 8 8) = me := by
  simp [footerBytes, FOOTER_MAGIC, le, slice, leDec]
  omega

theorem footerBytes_ck (me ck : Nat) (hck : ck < 2 ^ 32) :
    leDec (slice (footerBytes me ck) 16 4) = ck := by
  simp [footerBytes, FOOTER_MAGIC, le, slice, leDec]
  omega

/-- Evaluation of `load` on a four-part byte string
`header ++ content ++ metadata ++ footer` whose parts supply consistent
fields: the outcome is decided by the checksum comparison and then the
metadata parse. -/
theorem load_parts (H C MB F : List Nat) (T MO ME ver fl ck : Nat)
    (hH64 : H.length = 64) (hF64 : F.length = 64)
    (hHmagic : slice H 0 8 = HEADER_MAGIC)
    (hHtotal : leDec (slice H 8 8) = T)
    (hHmo : leDec (slice H 24 8) = MO)
    (hHver : leDec (slice H 36 2) = ver)
    (hHfl : leDec (slice H 38 2) = fl)
    (hFmagic : slice F 0 8 = FOOTER_MAGIC)
    (hFme : leDec (slice F 8 8) = ME)
    (hFck : leDec (slice F 16 4) = ck)
    (hver : ver ≤ 1)
    (hMO : MO = 64 + C.length)
    (hME : ME = MO + MB.length)
    (hgate : sizeGate (MO : Int) (ME : Int) (T : Int) = true) :
    MFAFFile.load (H ++ (C ++ (MB ++ F))) =
      if crc32 MB &&& 0xFFFFFFFF ≠ ck then Except.error .crcError
      else
        match unpackb MB with
        | none => Except.error .msgpackError
        | some v =>
          match iterVal v with
          | none => Except.error .typeError
          | some items =>
            (readEntries (H ++ (C ++ (MB ++ F))) items).map fun es =>
              { entries := es, version := ver, flags := fl,
                total_size := T } := by
  have htake : (H ++ (C ++ (MB ++ F))).take HEADER_SIZE = H :=
    take_append_len _ _ _ hH64
  have hslice8 : slice ((H ++ (C ++ (MB ++ F))).take HEADER_SIZE) 0 8 =
      slice H 0 8 := by rw [htake]
  have hdlen : (H ++ (C ++ (MB ++ F))).length = 64 + C.length + MB.length + 64 := by
    simp only [List.length_append, hH64, hF64]
    omega
  have hfoot : slice (H ++ (C ++ (MB ++ F)))
      ((H ++ (C ++ (MB ++ F))).length - FOOTER_SIZE) FOOTER_SIZE = F := by
    have hPdata : H ++ (C ++ (MB ++ F)) = (H ++ (C ++ MB)) ++ F := by
      simp [List.append_assoc]
    have hPlen : (H ++ (C ++ MB)).length = 64 + C.length + MB.length := by
      simp only [List.length_append, hH64]
      omega
    unfold slice
    rw [hdlen, hPdata]
    have he : 64 + C.length + MB.length + 64 - FOOTER_SIZE =
        64 + C.length + MB.length := by
      norm_num [FOOTER_SIZE]
    rw [he, drop_append_len _ _ _ hPlen]
    have hFS : FOOTER_SIZE = F.length := by rw [hF64]; rfl
    rw [hFS, List.take_length]
  have hmeta : pyRead (H ++ (C ++ (MB ++ F))) MO ((ME : Int) - (MO : Int)) =
      MB := by
    have hdiff : (ME : Int) - (MO : Int) = (MB.length : Int) := by
      rw [hME]
      push_cast
      omega
    have hQ : H ++ (C ++ (MB ++ F)) = (H ++ C) ++ (MB ++ F) := by
      simp [List.append_assoc]
    have hQlen : (H ++ C).length = MO := by
      simp only [List.length_append, hH64, hMO]
    unfold pyRead
    rw [hdiff, if_neg (by omega), Int.toNat_natCast, hQ,
      drop_append_len _ _ MO hQlen, take_append_len MB F MB.length rfl]
  simp only [MFAFFile.load]
  rw [htake, hH64]
  rw [if_neg (by norm_num [HEADER_SIZE])]
  rw [hHmagic]
  rw [if_neg (fun hc => hc rfl)]
  rw [hHtotal, hHmo, hHver, hHfl]
  rw [if_neg (by omega)]
  rw [hfoot, hF64]
  rw [if_neg (by norm_num [FOOTER_SIZE])]
  rw [hFmagic]
  rw [if_neg (fun hc => hc rfl)]
  rw [hFme, hFck]
  rw [if_neg (not_not_intro hgate)]
  rw [hmeta]

/-- `content_size` as computed by `save`. -/
def contentSizeOf (a : MFAFFile) : Nat :=
  (a.entries.map fun e => e.content.length).sum

theorem assignOffsets_fields (o : Int) (es : List MFAFEntry) :
    (assignOffsets o es).map (fun e => e.content) = es.map (fun e => e.content) ∧
    (assignOffsets o es).map (fun e => e.name) = es.map (fun e => e.name) ∧
    (assignOffsets o es).map (fun e => e.mime_type) =
      es.map (fun e => e.mime_type) ∧
    (assignOffsets o es).map (fun e => e.attributes) =
      es.map (fun e => e.attributes) ∧
    (assignOffsets o es).map (fun e => e.size) = es.map (fun e => e.size) ∧
    (assignOffsets o es).length = es.length := by
  induction es generalizing o with
  | nil => simp [assignOffsets]
  | cons e t ih =>
    obtain ⟨h1, h2, h3, h4, h5, h6⟩ := ih (o + e.size)
    simp [assignOffsets, h1, h2, h3, h4, h5, h6]

theorem assignOffsets_flatMap_content (o : Int) (es : List MFAFEntry) :
    (assignOffsets o es).flatMap (fun e => e.content) =
      es.flatMap (fun e => e.content) := by
  induction es generalizing o with
  | nil => rfl
  | cons e t ih => simp [assignOffsets, ih]

theorem save_inv (a a' : MFAFFile) (out : List Nat)
    (h : MFAFFile.save a = some (a', out)) :
    ∃ mb, packValue (.arr ((assignOffsets ((HEADER_SIZE : Nat) : Int)
        a.entries).map MFAFEntry.to_dict)) = some mb ∧
      a' = { a with
             entries := assignOffsets ((HEADER_SIZE : Nat) : Int) a.entries,
             total_size :=
               HEADER_SIZE + contentSizeOf a + mb.length + FOOTER_SIZE } ∧
      out = headerBytes (HEADER_SIZE + contentSizeOf a + mb.length + FOOTER_SIZE)
          (HEADER_SIZE + contentSizeOf a) a.entries.length a.version a.flags ++
        (assignOffsets ((HEADER_SIZE : Nat) : Int) a.entries).flatMap
          (fun e => e.content) ++
        mb ++
        footerBytes (HEADER_SIZE + contentSizeOf a + mb.length)
          (crc32 mb &&& 0xFFFFFFFF) ∧
      HEADER_SIZE + contentSizeOf a + mb.length + FOOTER_SIZE < 2 ^ 64 ∧
      a.entries.length < 2 ^ 32 ∧ a.version < 2 ^ 16 ∧ a.flags < 2 ^ 16 := by
  simp only [MFAFFile.save] at h
  split at h
  · exact absurd h (by simp)
  · rename_i mb hmb
    split_ifs at h with hg
    · simp only [Option.some.injEq, Prod.mk.injEq] at h
      obtain ⟨ha', hout⟩ := h
      obtain ⟨hg1, hg2, hg3, hg4⟩ := hg
      exact ⟨mb, hmb, ha'.symm, hout.symm,
        by simp only [contentSizeOf]; omega, hg2, hg3, hg4⟩

/-- Decoding a just-encoded archive: every gate up to and including the
checksum passes, and the result is the entry-reconstruction loop run over
the round-tripped metadata records. -/
theorem load_save_eval (a a' : MFAFFile) (out : List Nat)
    (h : MFAFFile.save a = some (a', out)) (hver : a.version ≤ 1) :
    MFAFFile.load out =
      (readEntries out ((assignOffsets ((HEADER_SIZE : Nat) : Int)
          a.entries).map MFAFEntry.to_dict)).map fun es =>
        { entries := es, version := a.version, flags := a.flags,
          total_size := a'.total_size } := by
  obtain ⟨mb, hmb, ha', hout, hb64, hb32, hbv, hbf⟩ := save_inv a a' out h
  have hClen : ((assignOffsets ((HEADER_SIZE : Nat) : Int)
      a.entries).flatMap (fun e => e.content)).length = contentSizeOf a := by
    rw [List.length_flatMap]
    have hc := (assignOffsets_fields ((HEADER_SIZE : Nat) : Int) a.entries).1
    have : List.map (List.length ∘ fun e => e.content)
        (assignOffsets ((HEADER_SIZE : Nat) : Int) a.entries) =
        List.map List.length (List.map (fun e => e.content)
          (assignOffsets ((HEADER_SIZE : Nat) : Int) a.entries)) := by
      rw [List.map_map]
    rw [this, hc, List.map_map]
    rfl
  have hrw : out =
      headerBytes (HEADER_SIZE + contentSizeOf a + mb.length + FOOTER_SIZE)
        (HEADER_SIZE + contentSizeOf a) a.entries.length a.version a.flags ++
      ((assignOffsets ((HEADER_SIZE : Nat) : Int) a.entries).flatMap
        (fun e => e.content) ++
      (mb ++
      footerBytes (HEADER_SIZE + contentSizeOf a + mb.length)
        (crc32 mb &&& 0xFFFFFFFF))) := by
    rw [hout]
    simp [List.append_assoc]
  rw [hrw]
  rw [load_parts
    (headerBytes (HEADER_SIZE + contentSizeOf a + mb.length + FOOTER_SIZE)
      (HEADER_SIZE + contentSizeOf a) a.entries.length a.version a.flags)
    ((assignOffsets ((HEADER_SIZE : Nat) : Int) a.entries).flatMap
      (fun e => e.content))
    mb
    (footerBytes (HEADER_SIZE + contentSizeOf a + mb.length)
      (crc32 mb &&& 0xFFFFFFFF))
    (HEADER_SIZE + contentSizeOf a + mb.length + FOOTER_SIZE)
    (HEADER_SIZE + contentSizeOf a)
    (HEADER_SIZE + contentSizeOf a + mb.length)
    a.version a.flags (crc32 mb &&& 0xFFFFFFFF)
    (headerBytes_length _ _ _ _ _) (footerBytes_length _ _)
    (headerBytes_magic _ _ _ _ _)
    (headerBytes_total _ _ _ _ _ hb64)
    (headerBytes_mo _ _ _ _ _ (by simp only [HEADER_SIZE, FOOTER_SIZE] at hb64 ⊢; omega))
    (headerBytes_version _ _ _ _ _ hbv)
    (headerBytes_flags _ _ _ _ _ hbf)
    (footerBytes_magic _ _)
    (footerBytes_me _ _ (by simp only [HEADER_SIZE, FOOTER_SIZE] at hb64 ⊢; omega))
    (footerBytes_ck _ _ (Nat.and_lt_two_pow _ (by norm_num)))
    hver
    (by rw [hClen]; rfl)
    rfl
    (by simp only [sizeGate, beq_iff_eq, HEADER_SIZE, FOOTER_SIZE]; push_cast; omega)]
  rw [if_neg (by simp)]
  rw [unpackb_packValue _ _ hmb]
  show (readEntries _ _).map _ = _
  rw [ha']

/-- `from_dict` inverts `to_dict` exactly, for any entry: the transport
record determines name, MIME type, attributes, offset and size; content
starts empty. -/
theorem fromDictVal_to_dict (e : MFAFEntry) :
    fromDictVal (MFAFEntry.to_dict e) = .ok { e with content := [] } := by
  cases hattr : e.attributes with
  | nil =>
    simp [MFAFEntry.to_dict, fromDictVal, dictGet, keyN, keyO, keyS, keyM,
      keyA, hattr]
  | cons p t =>
    simp [MFAFEntry.to_dict, fromDictVal, dictGet, keyN, keyO, keyS, keyM,
      keyA, hattr]

/-- One step of the entry loop. -/
theorem readEntries_cons (data : List Nat) (item : MsgValue)
    (rest : List MsgValue) :
    readEntries data (item :: rest) =
      (fromDictVal item).bind fun e =>
        if e.offset < 0 then Except.error .valueError
        else (readEntries data rest).bind fun t =>
          Except.ok ({ e with content := pyRead data e.offset.toNat e.size }
            :: t) := rfl

/-- Running the entry loop over the transport records of a laid-out entry
list whose sizes agree with the content lengths re-reads exactly the
original contents. -/
theorem readEntries_assign (es : List MFAFEntry) (data tail0 : List Nat)
    (off : Nat)
    (hsz : ∀ e ∈ es, e.size = (e.content.length : Int))
    (htail : data.drop off = es.flatMap (fun e => e.content) ++ tail0) :
    readEntries data ((assignOffsets (off : Int) es).map MFAFEntry.to_dict) =
      .ok (assignOffsets (off : Int) es) := by
  induction es generalizing off with
  | nil => rfl
  | cons e t ih =>
    have hesz : e.size = (e.content.length : Int) := hsz e (by simp)
    have htsz : ∀ x ∈ t, x.size = (x.content.length : Int) :=
      fun x hx => hsz x (by simp [hx])
    have hdropoff : data.drop off =
        e.content ++ (t.flatMap (fun x => x.content) ++ tail0) := by
      rw [htail]
      simp [List.flatMap_cons, List.append_assoc]
    have hcontent : (data.drop off).take e.content.length = e.content :=
      hdropoff ▸ take_append_len _ _ _ rfl
    have hnext : data.drop (off + e.content.length) =
        t.flatMap (fun x => x.content) ++ tail0 := by
      rw [← List.drop_drop, hdropoff, drop_append_len _ _ _ rfl]
    have hread : pyRead data ((off : Int)).toNat e.size = e.content := by
      unfold pyRead
      rw [hesz, if_neg (by omega), Int.toNat_natCast, Int.toNat_natCast,
        hcontent]
    have hcast : (off : Int) + e.size =
        ((off + e.content.length : Nat) : Int) := by
      rw [hesz]
      push_cast
      ring
    simp only [assignOffsets, List.map_cons]
    rw [readEntries_cons, fromDictVal_to_dict]
    dsimp only [Except.bind]
    rw [if_neg (by omega)]
    rw [hcast, ih (off + e.content.length) htsz hnext]
    dsimp only [Except.bind]
    rw [hread]

theorem assignOffsets_map_proj (o : Int) (es : List MFAFEntry) :
    (assignOffsets o es).map
        (fun e => (e.name, e.content, e.mime_type, e.attributes)) =
      es.map (fun e => (e.name, e.content, e.mime_type, e.attributes)) := by
  induction es generalizing o with
  | nil => rfl
  | cons e t ih => simp [assignOffsets, ih]

/-- An archive built by appending entries made from
`(name, content bytes, MIME type, attributes)` tuples: `MFAFFile()` followed
by `add_entry(MFAFEntry(name, content, mime_type, attributes))` for each
tuple in order. -/
def buildArchive
    (ts : List (List Nat × List Nat × List Nat ×
      List (List Nat × MsgValue))) : MFAFFile :=
  ts.foldl
    (fun a t => a.add_entry (MFAFEntry.mkNew t.1 t.2.1 t.2.2.1 t.2.2.2))
    MFAFFile.new

theorem foldl_add_entry (a : MFAFFile)
    (ts : List (List Nat × List Nat × List Nat ×
      List (List Nat × MsgValue))) :
    ts.foldl
        (fun a t => a.add_entry (MFAFEntry.mkNew t.1 t.2.1 t.2.2.1 t.2.2.2))
        a =
      { a with entries := a.entries ++
          ts.map (fun t => MFAFEntry.mkNew t.1 t.2.1 t.2.2.1 t.2.2.2) } := by
  induction ts generalizing a with
  | nil => simp
  | cons t r ih =>
    rw [List.foldl_cons, ih]
    simp [MFAFFile.add_entry]

theorem buildArchive_fields
    (ts : List (List Nat × List Nat × List Nat ×
      List (List Nat × MsgValue))) :
    (buildArchive ts).entries =
        ts.map (fun t => MFAFEntry.mkNew t.1 t.2.1 t.2.2.1 t.2.2.2) ∧
      (buildArchive ts).version = 1 ∧ (buildArchive ts).flags = 0 := by
  unfold buildArchive
  rw [foldl_add_entry]
  simp [MFAFFile.new]

/-! ## Lookup and extraction -/

/-- `get_entry`: linear scan, first name match wins, `None` when absent. -/
def MFAFFile.get_entry (a : MFAFFile) (name : List Nat) : Option MFAFEntry :=
  a.entries.find? fun e => e.name = name

/-- `extract_entry`: look the name up and produce the entry's content (the
bytes written to the output file); a missing name raises the Python builtin
`KeyError`, not an `MFAFError`. -/
def MFAFFile.extract_entry (a : MFAFFile) (name : List Nat) :
    Except PyExc (List Nat) :=
  match a.get_entry name with
  | none => .error (.keyError name)
  | some e => .ok e.content

/-- `list_entries`: the ordered names. -/
def MFAFFile.list_entries (a : MFAFFile) : List (List Nat) :=
  a.entries.map fun e => e.name

/-! # Claim theorems -/

/-- **C1** Round trip: for every archive built by appending an arbitrary
finite sequence of (name, content bytes, MIME type, attributes) tuples,
saving it and then loading the saved bytes yields an archive with the same
entry count, the same names in the same order, byte-identical content per
entry, the same MIME types, and equal attribute maps (the loaded attribute
pair list equals the original pair list, which implies order-independent
key/value map equality). Hypothesis: `save` succeeded (it fails only on
`struct.pack`/`msgpack` range overflows). -/
theorem c1_round_trip
    (ts : List (List Nat × List Nat × List Nat × List (List Nat × MsgValue)))
    (a' : MFAFFile) (out : List Nat)
    (h : (buildArchive ts).save = some (a', out)) :
    (MFAFFile.load out).map (fun lf => lf.entries.map fun e =>
        (e.name, e.content, e.mime_type, e.attributes)) = Except.ok ts := by
  obtain ⟨hentries, hver1, hfl0⟩ := buildArchive_fields ts
  have hload := load_save_eval _ _ _ h (by rw [hver1])
  obtain ⟨mb, hmb, ha', hout, _hb1, _hb2, _hb3, _hb4⟩ := save_inv _ _ _ h
  have hsz : ∀ e ∈ (buildArchive ts).entries,
      e.size = (e.content.length : Int) := by
    rw [hentries]
    intro e he
    simp only [List.mem_map] at he
    obtain ⟨t, _, rfl⟩ := he
    rfl
  have hdrop : out.drop HEADER_SIZE =
      (buildArchive ts).entries.flatMap (fun e => e.content) ++
        (mb ++ footerBytes
          (HEADER_SIZE + contentSizeOf (buildArchive ts) + mb.length)
          (crc32 mb &&& 0xFFFFFFFF)) := by
    rw [hout]
    simp only [List.append_assoc]
    rw [drop_append_len _ _ HEADER_SIZE
        ((headerBytes_length _ _ _ _ _).trans rfl),
      assignOffsets_flatMap_content]
  rw [hload,
    readEntries_assign ((buildArchive ts).entries) out _ HEADER_SIZE hsz hdrop]
  dsimp only [Except.map]
  rw [assignOffsets_map_proj, hentries, List.map_map]
  rw [show ((fun e : MFAFEntry => (e.name, e.content, e.mime_type, e.attributes)) ∘
      fun t : List Nat × List Nat × List Nat × List (List Nat × MsgValue) =>
        MFAFEntry.mkNew t.1 t.2.1 t.2.2.1 t.2.2.2) = id from
    funext fun t => rfl]
  rw [List.map_id]

/-- A default archive/bytes pair, used only to project save results in
closed witness statements. -/
def mfafDflt : MFAFFile × List Nat := (MFAFFile.new, [])

/-- A concrete two-entry tuple sequence for the C1 witness: entry `"a"` with
two content bytes and no attributes, entry `"b"` with one content byte and
one integer attribute. -/
def c1wTuples :
    List (List Nat × List Nat × List Nat × List (List Nat × MsgValue)) :=
  [([0x61], [1, 2], [0x74], []),
   ([0x62], [3], [0x75], [([0x6B], .int 7)])]

/-- Witness for C1: the round trip at the concrete two-entry archive. -/
theorem c1_round_trip_witness :
    (MFAFFile.load ((MFAFFile.save (buildArchive c1wTuples)).getD mfafDflt).2).map
        (fun lf => lf.entries.map fun e =>
          (e.name, e.content, e.mime_type, e.attributes)) =
      Except.ok c1wTuples :=
  c1_round_trip c1wTuples
    ((MFAFFile.save (buildArchive c1wTuples)).getD mfafDflt).1
    ((MFAFFile.save (buildArchive c1wTuples)).getD mfafDflt).2 rfl

/-- **C7** Empty archive: encoding an archive with zero entries and decoding
the result yields an archive with zero entries, version 1, flags 0, and
`total_size` 129 = header width (64) + footer width (64) + the byte length
of the encoded empty metadata sequence (`msgpack.packb([])`, one byte). -/
theorem c7_empty_archive :
    (MFAFFile.new.save).map (fun p => MFAFFile.load p.2) =
      some (Except.ok (⟨[], 1, 0, 129⟩ : MFAFFile)) ∧
    (129 : Nat) = HEADER_SIZE + FOOTER_SIZE +
      ((packValue (.arr [])).getD []).length :=
  ⟨rfl, rfl⟩

/-- The C4 metadata record: a single entry whose declared offset 1000 and
size 50 point far outside the 146-byte file. -/
def c4meta : MsgValue :=
  .map [(keyN, .str [0x78]), (keyO, .int 1000), (keyS, .int 50),
        (keyM, .str [0x74])]

/-- The serialized C4 metadata blob. -/
def c4mb : List Nat := (packValue (.arr [c4meta])).getD []

/-- The crafted C4 input: header, no content bytes, the C4 metadata blob,
and a footer with the correct length field and checksum — every gate
(header, footer, size, checksum, metadata parse) passes. -/
def c4data : List Nat :=
  headerBytes (64 + c4mb.length + 64) 64 1 1 0 ++ c4mb ++
    footerBytes (64 + c4mb.length) (crc32 c4mb &&& 0xFFFFFFFF)

/-- **C4** Unguarded content slicing: `c4data` passes every gate, its
metadata declares offset 1000 / size 50 outside the available 146 bytes,
yet decode returns successfully — no bounds (or any other) error is raised —
with the entry's content empty, shorter than its declared size 50. -/
theorem c4_unguarded_slicing :
    MFAFFile.load c4data =
      Except.ok (⟨[⟨[0x78], [], [0x74], [], 1000, 50⟩], 1, 0, 146⟩ :
        MFAFFile) ∧
    (MFAFFile.load c4data).map (fun lf => lf.entries.map fun e =>
        (e.content.length, e.size)) = Except.ok [(0, (50 : Int))] ∧
    ((0 : Int) < 50 ∧ c4data.length = 146) :=
  ⟨rfl, rfl, by norm_num, rfl⟩

/-- A one-entry archive used by the C9 statements. -/
def c9archive : MFAFFile :=
  MFAFFile.new.add_entry (MFAFEntry.mkNew [0x61] [1] [0x74] [])

/-- **C9 counterexample** Extraction of a missing name does not fail with a
kind of the library's own `MFAFError` taxonomy: it raises the Python builtin
`KeyError`, which `isMFAFError` classifies as outside the taxonomy. -/
theorem c9_counterexample :
    c9archive.extract_entry [0x62] = Except.error (.keyError [0x62]) ∧
    (PyExc.keyError [0x62]).isMFAFError = false :=
  ⟨rfl, rfl⟩

/-- **C9 amended** For every archive and every name matching no entry,
extraction fails with the Python builtin `KeyError` carrying the name — a
distinct, recognizable failure, but not one of the `MFAFError` kinds defined
in `exceptions.py` (no EntryNotFound kind exists there). -/
theorem c9_missing_entry (a : MFAFFile) (n : List Nat)
    (h : a.get_entry n = none) :
    a.extract_entry n = Except.error (.keyError n) ∧
    (PyExc.keyError n).isMFAFError = false := by
  constructor
  · unfold MFAFFile.extract_entry
    rw [h]
  · rfl

/-- Witness for the amended C9 at a concrete archive and missing name. -/
theorem c9_missing_entry_witness :
    c9archive.get_entry [0x62] = none ∧
    (c9archive.extract_entry [0x62] = Except.error (.keyError [0x62]) ∧
      (PyExc.keyError [0x62]).isMFAFError = false) :=
  ⟨rfl, c9_missing_entry c9archive [0x62] rfl⟩

/-- **C10** The structural consistency gate of `load` is the equation
`metadata_offset + (metadata_end - metadata_offset) + FOOTER_SIZE ==
total_size` over Python's unbounded integers, in which `metadata_offset`
cancels: the gate's outcome is the same for every value of
`metadata_offset`, and it passes exactly when
`metadata_end + FOOTER_SIZE = total_size`. Hence an input whose
`metadata_offset` alone is corrupted is never rejected by this gate. -/
theorem c10_gate_independence (mo mo' me ts : Int) :
    sizeGate mo me ts = sizeGate mo' me ts ∧
    (sizeGate mo me ts = true ↔ me + (FOOTER_SIZE : Int) = ts) := by
  constructor
  · unfold sizeGate
    rw [show mo + (me - mo) + (FOOTER_SIZE : Int) = me + FOOTER_SIZE from by
      ring]
    rw [show mo' + (me - mo') + (FOOTER_SIZE : Int) = me + FOOTER_SIZE from by
      ring]
  · unfold sizeGate
    rw [show mo + (me - mo) + (FOOTER_SIZE : Int) = me + FOOTER_SIZE from by
      ring]
    exact beq_iff_eq

/-- **C6** Version gate: every input of at least header width whose header
magic is correct and whose declared version field exceeds 1 is rejected with
the unsupported-version error, regardless of every other byte of the input
(all other fields are universally quantified here, so well-formedness of
the rest is not even needed). -/
theorem c6_version_gate (data : List Nat) (hlen : 64 ≤ data.length)
    (hmagic : slice (data.take HEADER_SIZE) 0 8 = HEADER_MAGIC)
    (hver : 1 < leDec (slice (data.take HEADER_SIZE) 36 2)) :
    MFAFFile.load data = Except.error .versionError := by
  simp only [MFAFFile.load]
  rw [if_neg (by simp only [List.length_take, HEADER_SIZE]; omega)]
  rw [hmagic]
  rw [if_neg (fun hc => hc rfl)]
  rw [if_pos hver]

/-- Witness for C6: a header declaring version 2 with everything else
well-formed. -/
theorem c6_version_gate_witness :
    (64 ≤ (headerBytes 0 0 0 2 0).length ∧
      slice ((headerBytes 0 0 0 2 0).take HEADER_SIZE) 0 8 = HEADER_MAGIC ∧
      1 < leDec (slice ((headerBytes 0 0 0 2 0).take HEADER_SIZE) 36 2)) ∧
    MFAFFile.load (headerBytes 0 0 0 2 0) = Except.error .versionError :=
  ⟨⟨by decide, by decide, by decide⟩,
    c6_version_gate (headerBytes 0 0 0 2 0) (by decide) (by decide)
      (by decide)⟩

/-- Any byte source of at least header width whose first eight bytes differ
from the header magic is rejected with the magic error; no other byte of
the input is consulted. -/
theorem load_bad_magic (m8 rest : List Nat) (hlen8 : m8.length = 8)
    (hne : m8 ≠ HEADER_MAGIC) (hlen : 64 ≤ 8 + rest.length) :
    MFAFFile.load (m8 ++ rest) = Except.error .magicError := by
  have hm : slice ((m8 ++ rest).take HEADER_SIZE) 0 8 = m8 := by
    unfold slice
    rw [List.drop_zero, List.take_take]
    rw [show min 8 HEADER_SIZE = 8 from by norm_num [HEADER_SIZE]]
    exact take_append_len m8 rest 8 hlen8
  simp only [MFAFFile.load]
  rw [if_neg (by
    simp only [List.length_take, List.length_append, hlen8, HEADER_SIZE]
    omega)]
  rw [hm]
  rw [if_pos hne]

/-- **C5** Magic gate: any input of at least header width whose first 8
bytes differ from the header magic is rejected with the magic-mismatch
error, whatever its remaining bytes — so no other header field (total_size,
offsets, entry_count, version, flags) influences the outcome; in particular
replacing the first 8 bytes of any valid encoded archive by 8 bytes other
than the true magic makes decode fail this way. (Replacing them by the
magic itself leaves the archive intact, so "arbitrary bytes" is read as
bytes differing from the magic.) -/
theorem c5_magic_gate (m8 rest : List Nat) (hlen8 : m8.length = 8)
    (hne : m8 ≠ HEADER_MAGIC) (hlen : 64 ≤ 8 + rest.length) :
    MFAFFile.load (m8 ++ rest) = Except.error .magicError ∧
    ∀ (a a' : MFAFFile) (out : List Nat), MFAFFile.save a = some (a', out) →
      MFAFFile.load (m8 ++ out.drop 8) = Except.error .magicError := by
  refine ⟨load_bad_magic m8 rest hlen8 hne hlen, ?_⟩
  intro a a' out h
  obtain ⟨mb, hmb, ha', hout, _⟩ := save_inv a a' out h
  have houtlen : 128 ≤ out.length := by
    rw [hout]
    simp only [List.length_append, headerBytes_length, footerBytes_length]
    omega
  apply load_bad_magic m8 (out.drop 8) hlen8 hne
  rw [List.length_drop]
  omega

/-- Witness for C5: zeroed magic in front of a valid remainder. -/
theorem c5_magic_gate_witness :
    (([0, 0, 0, 0, 0, 0, 0, 0] : List Nat).length = 8 ∧
      ([0, 0, 0, 0, 0, 0, 0, 0] : List Nat) ≠ HEADER_MAGIC ∧
      64 ≤ 8 + (List.replicate 121 (0 : Nat)).length) ∧
    MFAFFile.load (([0, 0, 0, 0, 0, 0, 0, 0] : List Nat) ++
        List.replicate 121 (0 : Nat)) = Except.error .magicError :=
  ⟨⟨rfl, by decide, by decide⟩,
    (c5_magic_gate [0, 0, 0, 0, 0, 0, 0, 0] (List.replicate 121 0) rfl
      (by decide) (by decide)).1⟩

/-- The sequential layout of the encode step: the first offset is the start
position, each subsequent offset is the previous offset plus the previous
size, with no gaps or padding. -/
def layoutOffsets : Int → List Int → List Int
  | _, [] => []
  | st, s :: t => st :: layoutOffsets (st + s) t

theorem assignOffsets_offsets (o : Int) (es : List MFAFEntry) :
    (assignOffsets o es).map (fun e => e.offset) =
      layoutOffsets o (es.map fun e => e.size) := by
  induction es generalizing o with
  | nil => rfl
  | cons e t ih => simp [assignOffsets, layoutOffsets, ih]

/-- **C8** Encode layout side effect: after `save` completes, the returned
(mutated) archive's entry offsets are exactly the sequential layout
`layoutOffsets HEADER_SIZE sizes`: the first entry's offset equals
`content_offset` (the header width, 64) and every subsequent entry's offset
equals the previous entry's offset plus the previous entry's size, with no
gaps or padding; and each entry's size field is unchanged — precisely the
size the layout was computed from. -/
theorem c8_layout_side_effect (a a' : MFAFFile) (out : List Nat)
    (h : MFAFFile.save a = some (a', out)) :
    a'.entries.map (fun e => e.offset) =
      layoutOffsets ((HEADER_SIZE : Nat) : Int)
        (a.entries.map fun e => e.size) ∧
    a'.entries.map (fun e => e.size) = a.entries.map (fun e => e.size) := by
  obtain ⟨mb, hmb, ha', hout, _⟩ := save_inv a a' out h
  rw [ha']
  exact ⟨assignOffsets_offsets _ _, (assignOffsets_fields _ _).2.2.2.2.1⟩

/-- A concrete two-entry archive for the C8 witness. -/
def c8archive : MFAFFile :=
  (MFAFFile.new.add_entry (MFAFEntry.mkNew [0x61] [1, 2] [0x74] [])).add_entry
    (MFAFEntry.mkNew [0x62] [3, 4, 5] [0x75] [])

/-- Witness for C8 at the concrete two-entry archive. -/
theorem c8_layout_side_effect_witness :
    ((c8archive.save).getD mfafDflt).1.entries.map (fun e => e.offset) =
      layoutOffsets ((HEADER_SIZE : Nat) : Int)
        (c8archive.entries.map fun e => e.size) ∧
    ((c8archive.save).getD mfafDflt).1.entries.map (fun e => e.size) =
      c8archive.entries.map (fun e => e.size) :=
  c8_layout_side_effect c8archive ((c8archive.save).getD mfafDflt).1
    ((c8archive.save).getD mfafDflt).2 rfl

/-- The metadata blob the forged-footer archive will have: one entry named
`'a'`, MIME `'t'`, no attributes, offset 64, size 80 (`to_dict` never reads
the content bytes, so this is computable before the content is chosen). -/
def rvMb : List Nat :=
  (packValue (.arr [MFAFEntry.to_dict ⟨[0x61], [], [0x74], [], 64, 80⟩])).getD []

/-- The checksum the real footer (and hence the forged one) will carry. -/
def rvCk : Nat := crc32 rvMb &&& 0xFFFFFFFF

/-- 80 content bytes that embed a forged footer record — footer magic,
`metadata_end = 144 + rvMb.length`, checksum — positioned so that after
truncating the encoded archive to `144 + rvMb.length` bytes, the last 64
bytes of the truncated data start with these 20 forged bytes. -/
def rvContent : List Nat :=
  List.replicate (16 + rvMb.length) 0x55 ++ FOOTER_MAGIC ++
    le 8 (144 + rvMb.length) ++ le 4 rvCk ++
    List.replicate (44 - rvMb.length) 0x55

/-- The forged-footer archive: a single entry carrying `rvContent`. Its
encoding is 224 bytes; truncating to 160 bytes leaves header and content
intact, cuts the real metadata and footer, and the footer window load reads
from the end of the truncated data lands on the forged bytes inside the
content. -/
def rvArchive : MFAFFile :=
  MFAFFile.new.add_entry (MFAFEntry.mkNew [0x61] rvContent [0x74] [])

/-- **C2 counterexample** Decode can return successfully on truncated data:
the 224-byte encoding of `rvArchive` truncated to 160 bytes — fewer than its
declared total_size — loads to `ok` with the full entry, because the footer
window now falls inside the content bytes, which embed a forged footer whose
magic, metadata_end and checksum all pass. This refutes both "never a
successful return with short data" and "fails with the size-inconsistency
error or an explicit bounds error". -/
theorem c2_counterexample :
    160 < ((rvArchive.save).getD mfafDflt).2.length ∧
    MFAFFile.load (((rvArchive.save).getD mfafDflt).2.take 160) =
      Except.ok ⟨[⟨[0x61], rvContent, [0x74], [], 64, 80⟩], 1, 0, 224⟩ :=
  ⟨by decide, rfl⟩

/-- **C2 amended** Truncating a valid (version-1) encoded archive to fewer
bytes than its declared total_size is detected only partially, never with a
bounds error, and not reliably: truncation below the 64-byte header width
fails with the size error; truncation at or above it fails with the footer
magic-mismatch error whenever the truncated data's last 64 bytes do not
begin with the footer magic; and detection is not guaranteed — there exists
a valid archive and a proper truncation of its encoding that decode accepts
outright, a silent short read, because the 64-byte footer window that load
reads from the end of the truncated data can land inside caller-chosen
content bytes embedding a forged footer. -/
theorem c2_truncation (a a' : MFAFFile) (out : List Nat) (L : Nat)
    (h : MFAFFile.save a = some (a', out)) (hver : a.version = 1)
    (hL : L < out.length) :
    (L < HEADER_SIZE → MFAFFile.load (out.take L) = Except.error .sizeError) ∧
    (HEADER_SIZE ≤ L →
      slice (out.take L) (L - FOOTER_SIZE) 8 ≠ FOOTER_MAGIC →
      MFAFFile.load (out.take L) = Except.error .magicError) ∧
    (∃ (b b' : MFAFFile) (o : List Nat) (K : Nat),
      MFAFFile.save b = some (b', o) ∧ b.version = 1 ∧ K < o.length ∧
      ∃ f, MFAFFile.load (o.take K) = Except.ok f) := by
  refine ⟨?_, ?_,
    ⟨rvArchive, ((rvArchive.save).getD mfafDflt).1,
      ((rvArchive.save).getD mfafDflt).2, 160, rfl, rfl, by decide,
      ⟨⟨[⟨[0x61], rvContent, [0x74], [], 64, 80⟩], 1, 0, 224⟩, rfl⟩⟩⟩
  · intro hL64
    have hL64n : L < 64 := hL64
    simp only [MFAFFile.load]
    rw [if_pos (by
      simp only [List.length_take, HEADER_SIZE]
      omega)]
  · intro hL64 hfm
    have hL64n : 64 ≤ L := hL64
    obtain ⟨mb, hmb, ha', hout, hb64, hb32, hbv, hbf⟩ := save_inv a a' out h
    have hlenL : (out.take L).length = L := by
      rw [List.length_take]
      omega
    have htake64 : (out.take L).take HEADER_SIZE =
        headerBytes (HEADER_SIZE + contentSizeOf a + mb.length + FOOTER_SIZE)
          (HEADER_SIZE + contentSizeOf a) a.entries.length a.version
          a.flags := by
      rw [List.take_take, show min HEADER_SIZE L = HEADER_SIZE from by
        simp only [HEADER_SIZE]; omega]
      rw [hout]
      simp only [List.append_assoc]
      exact take_append_len _ _ _ ((headerBytes_length _ _ _ _ _).trans rfl)
    have hfd : slice (slice (out.take L) ((out.take L).length - FOOTER_SIZE)
        FOOTER_SIZE) 0 8 = slice (out.take L) (L - FOOTER_SIZE) 8 := by
      unfold slice
      rw [List.drop_zero, List.take_take, hlenL]
      rw [show min 8 FOOTER_SIZE = 8 from by norm_num [FOOTER_SIZE]]
    have hfdlen : (slice (out.take L) ((out.take L).length - FOOTER_SIZE)
        FOOTER_SIZE).length = 64 := by
      unfold slice
      simp only [List.length_take, List.length_drop, hlenL, FOOTER_SIZE]
      omega
    simp only [MFAFFile.load]
    rw [if_neg (by
      simp only [List.length_take, HEADER_SIZE]
      omega)]
    rw [htake64, headerBytes_magic]
    rw [if_neg (fun hc => hc rfl)]
    rw [headerBytes_version _ _ _ _ _ hbv]
    rw [if_neg (by omega)]
    rw [hfdlen]
    rw [if_neg (by norm_num [FOOTER_SIZE])]
    rw [hfd]
    rw [if_pos hfm]

/-- Witness for the amended C2: the empty archive truncated to 100 bytes
takes the footer-magic branch. -/
theorem c2_truncation_witness :
    (MFAFFile.new.version = 1 ∧
      100 < ((MFAFFile.new.save).getD mfafDflt).2.length ∧
      (HEADER_SIZE ≤ 100 ∧
        slice (((MFAFFile.new.save).getD mfafDflt).2.take 100)
          (100 - FOOTER_SIZE) 8 ≠ FOOTER_MAGIC)) ∧
    MFAFFile.load (((MFAFFile.new.save).getD mfafDflt).2.take 100) =
      Except.error .magicError :=
  ⟨⟨rfl, by decide, by decide, by decide⟩,
    ((c2_truncation MFAFFile.new ((MFAFFile.new.save).getD mfafDflt).1
      ((MFAFFile.new.save).getD mfafDflt).2 100 rfl rfl (by decide)).2.1
      (by decide) (by decide))⟩

/-- Flip bit `i` of the byte at position `p` of a byte string. -/
def flipBit (bs : List Nat) (p i : Nat) : List Nat :=
  bs.set p (bs.getD p 0 ^^^ 2 ^ i)

theorem set_append_right {α : Type} (s t : List α) (j : Nat) (x : α) :
    (s ++ t).set (s.length + j) x = s ++ t.set j x := by
  rw [List.set_append, if_neg (by omega)]
  rw [show s.length + j - s.length = j from by omega]

theorem flipBit_middle (P M S : List Nat) (j i : Nat) (hj : j < M.length) :
    flipBit (P ++ (M ++ S)) (P.length + j) i =
      P ++ (M.set j (M.getD j 0 ^^^ 2 ^ i) ++ S) := by
  unfold flipBit
  rw [List.getD_append_right _ _ _ _ (by omega),
    show P.length + j - P.length = j from by omega,
    List.getD_append _ _ _ _ hj]
  rw [set_append_right]
  rw [List.set_append, if_pos hj]

theorem assignOffsets_flatMap_length (o : Int) (es : List MFAFEntry) :
    ((assignOffsets o es).flatMap (fun e => e.content)).length =
      (es.map fun e => e.content.length).sum := by
  rw [assignOffsets_flatMap_content, List.length_flatMap]
  rfl

theorem fromDictVal_ne_crc (item : MsgValue) :
    fromDictVal item ≠ Except.error .crcError := by
  cases item with
  | map l =>
    simp only [fromDictVal]
    split
    all_goals simp
  | nil => simp [fromDictVal]
  | bool b => simp [fromDictVal]
  | int n => simp [fromDictVal]
  | str s => simp [fromDictVal]
  | arr l => simp [fromDictVal]

theorem readEntries_ne_crc (data : List Nat) (items : List MsgValue) :
    readEntries data items ≠ Except.error .crcError := by
  induction items with
  | nil => simp [readEntries]
  | cons item rest ih =>
    rw [readEntries_cons]
    cases hfd : fromDictVal item with
    | error e =>
      dsimp only [Except.bind]
      intro hc
      injection hc with h2
      apply fromDictVal_ne_crc item
      rw [hfd, h2]
    | ok e =>
      dsimp only [Except.bind]
      split
      · simp
      · cases hre : readEntries data rest with
        | error e2 =>
          dsimp only [Except.bind]
          intro hc
          injection hc with h2
          apply ih
          rw [hre, h2]
        | ok t =>
          dsimp only [Except.bind]
          simp

theorem exceptMap_readEntries_ne_crc (data : List Nat) (items : List MsgValue)
    (f : List MFAFEntry → MFAFFile) :
    (readEntries data items).map f ≠ Except.error .crcError := by
  have hne := readEntries_ne_crc data items
  cases hre : readEntries data items with
  | error e =>
    rw [hre] at hne
    dsimp only [Except.map]
    intro hc
    injection hc with h2
    exact hne (by rw [h2])
  | ok es =>
    dsimp only [Except.map]
    intro hc
    exact Except.noConfusion hc

/-- **C3** Checksum sensitivity: for a valid encoded archive, flipping any
single bit of any byte in the metadata blob region makes decode fail with
the checksum-mismatch error, while flipping any single bit of any byte in
the content region never produces a checksum-mismatch failure (the content
bytes are not covered by the checksum). The metadata region is
`[HEADER_SIZE + content size, total - FOOTER_SIZE)` and the content region
is `[HEADER_SIZE, HEADER_SIZE + content size)`. -/
theorem c3_checksum_sensitivity (a a' : MFAFFile) (out : List Nat)
    (h : MFAFFile.save a = some (a', out)) (hver : a.version ≤ 1) :
    (∀ p i, HEADER_SIZE + contentSizeOf a ≤ p →
        p < out.length - FOOTER_SIZE → i < 8 →
        MFAFFile.load (flipBit out p i) = Except.error .crcError) ∧
    (∀ p i, HEADER_SIZE ≤ p → p < HEADER_SIZE + contentSizeOf a → i < 8 →
        MFAFFile.load (flipBit out p i) ≠ Except.error .crcError) := by
  obtain ⟨mb, hmb, ha', hout, hb64, hb32, hbv, hbf⟩ := save_inv a a' out h
  have hClen : ((assignOffsets ((HEADER_SIZE : Nat) : Int) a.entries).flatMap
      (fun e => e.content)).length = contentSizeOf a :=
    (assignOffsets_flatMap_length _ _).trans rfl
  have houtlen : out.length =
      HEADER_SIZE + contentSizeOf a + mb.length + FOOTER_SIZE := by
    rw [hout]
    simp only [List.length_append, headerBytes_length, footerBytes_length,
      hClen]
    simp only [HEADER_SIZE, FOOTER_SIZE]
  have hout2 : out =
      headerBytes (HEADER_SIZE + contentSizeOf a + mb.length + FOOTER_SIZE)
          (HEADER_SIZE + contentSizeOf a) a.entries.length a.version a.flags ++
        ((assignOffsets ((HEADER_SIZE : Nat) : Int) a.entries).flatMap
          (fun e => e.content) ++
        (mb ++
        footerBytes (HEADER_SIZE + contentSizeOf a + mb.length)
          (crc32 mb &&& 0xFFFFFFFF))) := by
    rw [hout]
    simp [List.append_assoc]
  constructor
  · intro p i hp1 hp2 hi
    have hjlt : p - (HEADER_SIZE + contentSizeOf a) < mb.length := by omega
    have hflip : flipBit out p i =
        headerBytes (HEADER_SIZE + contentSizeOf a + mb.length + FOOTER_SIZE)
            (HEADER_SIZE + contentSizeOf a) a.entries.length a.version
            a.flags ++
          ((assignOffsets ((HEADER_SIZE : Nat) : Int) a.entries).flatMap
            (fun e => e.content) ++
          (mb.set (p - (HEADER_SIZE + contentSizeOf a))
            (mb.getD (p - (HEADER_SIZE + contentSizeOf a)) 0 ^^^ 2 ^ i) ++
          footerBytes (HEADER_SIZE + contentSizeOf a + mb.length)
            (crc32 mb &&& 0xFFFFFFFF))) := by
      have hout3 : out =
          (headerBytes (HEADER_SIZE + contentSizeOf a + mb.length +
              FOOTER_SIZE) (HEADER_SIZE + contentSizeOf a) a.entries.length
              a.version a.flags ++
            (assignOffsets ((HEADER_SIZE : Nat) : Int) a.entries).flatMap
              (fun e => e.content)) ++
          (mb ++
          footerBytes (HEADER_SIZE + contentSizeOf a + mb.length)
            (crc32 mb &&& 0xFFFFFFFF)) := by
        rw [hout]
        simp [List.append_assoc]
      have hPlen : (headerBytes (HEADER_SIZE + contentSizeOf a + mb.length +
          FOOTER_SIZE) (HEADER_SIZE + contentSizeOf a) a.entries.length
          a.version a.flags ++
          (assignOffsets ((HEADER_SIZE : Nat) : Int) a.entries).flatMap
            (fun e => e.content)).length =
          HEADER_SIZE + contentSizeOf a := by
        simp only [List.length_append, headerBytes_length, hClen]
        simp only [HEADER_SIZE]
      have hmid := flipBit_middle
        (headerBytes (HEADER_SIZE + contentSizeOf a + mb.length + FOOTER_SIZE)
            (HEADER_SIZE + contentSizeOf a) a.entries.length a.version
            a.flags ++
          (assignOffsets ((HEADER_SIZE : Nat) : Int) a.entries).flatMap
            (fun e => e.content))
        mb
        (footerBytes (HEADER_SIZE + contentSizeOf a + mb.length)
          (crc32 mb &&& 0xFFFFFFFF))
        (p - (HEADER_SIZE + contentSizeOf a)) i hjlt
      rw [hPlen] at hmid
      simp only [List.append_assoc] at hmid
      rw [hout2]
      conv_lhs => rw [show p = HEADER_SIZE + contentSizeOf a +
        (p - (HEADER_SIZE + contentSizeOf a)) from by omega]
      exact hmid
    rw [hflip]
    rw [load_parts _ _ _ _
      (HEADER_SIZE + contentSizeOf a + mb.length + FOOTER_SIZE)
      (HEADER_SIZE + contentSizeOf a)
      (HEADER_SIZE + contentSizeOf a + mb.length)
      a.version a.flags (crc32 mb &&& 0xFFFFFFFF)
      (headerBytes_length _ _ _ _ _) (footerBytes_length _ _)
      (headerBytes_magic _ _ _ _ _)
      (headerBytes_total _ _ _ _ _ hb64)
      (headerBytes_mo _ _ _ _ _
        (by simp only [HEADER_SIZE, FOOTER_SIZE] at hb64 ⊢; omega))
      (headerBytes_version _ _ _ _ _ hbv)
      (headerBytes_flags _ _ _ _ _ hbf)
      (footerBytes_magic _ _)
      (footerBytes_me _ _
        (by simp only [HEADER_SIZE, FOOTER_SIZE] at hb64 ⊢; omega))
      (footerBytes_ck _ _ (Nat.and_lt_two_pow _ (by norm_num)))
      hver
      (by rw [hClen]; rfl)
      (by rw [List.length_set])
      (by simp only [sizeGate, beq_iff_eq, HEADER_SIZE, FOOTER_SIZE]
          push_cast
          omega)]
    rw [if_pos (crc32_set_ne mb (p - (HEADER_SIZE + contentSizeOf a)) (2 ^ i)
      hjlt (by positivity)
      ((Nat.pow_lt_pow_iff_right (by norm_num)).mpr (by omega)))]
  · intro p i hp1 hp2 hi
    have hp1n : 64 ≤ p := hp1
    have hq : p - HEADER_SIZE <
        ((assignOffsets ((HEADER_SIZE : Nat) : Int) a.entries).flatMap
          (fun e => e.content)).length := by
      rw [hClen]
      omega
    have hflip : flipBit out p i =
        headerBytes (HEADER_SIZE + contentSizeOf a + mb.length + FOOTER_SIZE)
            (HEADER_SIZE + contentSizeOf a) a.entries.length a.version
            a.flags ++
          (((assignOffsets ((HEADER_SIZE : Nat) : Int) a.entries).flatMap
              (fun e => e.content)).set (p - HEADER_SIZE)
            (((assignOffsets ((HEADER_SIZE : Nat) : Int) a.entries).flatMap
              (fun e => e.content)).getD (p - HEADER_SIZE) 0 ^^^ 2 ^ i) ++
          (mb ++
          footerBytes (HEADER_SIZE + contentSizeOf a + mb.length)
            (crc32 mb &&& 0xFFFFFFFF))) := by
      have hmid := flipBit_middle
        (headerBytes (HEADER_SIZE + contentSizeOf a + mb.length + FOOTER_SIZE)
            (HEADER_SIZE + contentSizeOf a) a.entries.length a.version
            a.flags)
        ((assignOffsets ((HEADER_SIZE : Nat) : Int) a.entries).flatMap
          (fun e => e.content))
        (mb ++
          footerBytes (HEADER_SIZE + contentSizeOf a + mb.length)
            (crc32 mb &&& 0xFFFFFFFF))
        (p - HEADER_SIZE) i hq
      rw [headerBytes_length] at hmid
      rw [hout2]
      conv_lhs => rw [show p = 64 + (p - HEADER_SIZE) from by
        simp only [HEADER_SIZE]
        omega]
      exact hmid
    rw [hflip]
    rw [load_parts _ _ _ _
      (HEADER_SIZE + contentSizeOf a + mb.length + FOOTER_SIZE)
      (HEADER_SIZE + contentSizeOf a)
      (HEADER_SIZE + contentSizeOf a + mb.length)
      a.version a.flags (crc32 mb &&& 0xFFFFFFFF)
      (headerBytes_length _ _ _ _ _) (footerBytes_length _ _)
      (headerBytes_magic _ _ _ _ _)
      (headerBytes_total _ _ _ _ _ hb64)
      (headerBytes_mo _ _ _ _ _
        (by simp only [HEADER_SIZE, FOOTER_SIZE] at hb64 ⊢; omega))
      (headerBytes_version _ _ _ _ _ hbv)
      (headerBytes_flags _ _ _ _ _ hbf)
      (footerBytes_magic _ _)
      (footerBytes_me _ _
        (by simp only [HEADER_SIZE, FOOTER_SIZE] at hb64 ⊢; omega))
      (footerBytes_ck _ _ (Nat.and_lt_two_pow _ (by norm_num)))
      hver
      (by rw [List.length_set, hClen]; rfl)
      rfl
      (by simp only [sizeGate, beq_iff_eq, HEADER_SIZE, FOOTER_SIZE]
          push_cast
          omega)]
    rw [if_neg (by simp)]
    rw [unpackb_packValue _ _ hmb]
    exact exceptMap_readEntries_ne_crc _ _ _

/-- A one-entry archive with one content byte, for the C3 witness. -/
def c3archive : MFAFFile :=
  MFAFFile.new.add_entry (MFAFEntry.mkNew [0x61] [0x2A] [0x74] [])

/-- Witness for C3: a metadata-region bit flip is rejected by the checksum
gate; a content-region bit flip is not. -/
theorem c3_checksum_sensitivity_witness :
    (c3archive.version ≤ 1 ∧
      HEADER_SIZE + contentSizeOf c3archive ≤ 65 ∧
      65 < ((c3archive.save).getD mfafDflt).2.length - FOOTER_SIZE ∧
      HEADER_SIZE ≤ 64 ∧ 64 < HEADER_SIZE + contentSizeOf c3archive ∧
      (0 : Nat) < 8) ∧
    MFAFFile.load (flipBit ((c3archive.save).getD mfafDflt).2 65 0) =
      Except.error .crcError ∧
    MFAFFile.load (flipBit ((c3archive.save).getD mfafDflt).2 64 0) ≠
      Except.error .crcError :=
  ⟨⟨by decide, by decide, by decide, by decide, by decide, by decide⟩,
    (c3_checksum_sensitivity c3archive ((c3archive.save).getD mfafDflt).1
      ((c3archive.save).getD mfafDflt).2 rfl (by decide)).1 65 0
      (by decide) (by decide) (by decide),
    (c3_checksum_sensitivity c3archive ((c3archive.save).getD mfafDflt).1
      ((c3archive.save).getD mfafDflt).2 rfl (by decide)).2 64 0
      (by decide) (by decide) (by decide)⟩

end MFAF
